import Mathlib

/-!
A verification development for the `ota-image-builder` resource pipeline
(`src/ota_image_builder/v1/_resource_process/` and `src/ota_image_builder/_configs.py`).

Modelling conventions:

* Byte strings are `List Nat` (one `Nat` per byte).
* SHA-256 is an external primitive (`hashlib`); it is modelled as an opaque
  digest function `h : Bytes → Digest`, assumed injective (collision-free)
  where a statement needs it.  Concrete instantiations use `id`, the
  canonical injective choice.
* The zstd compressor (`zstandard` library, also external) is modelled as an
  opaque function `compress : Bytes → Bytes` passed to the filter runs, just
  as the code passes a `ZstdCompressor` object around.
* The blob store (a flat directory keyed by hex digests) is an association
  list `Store`; `os.replace`/`Path.write_bytes` is `storeWrite`,
  `Path.unlink(missing_ok=True)` is `storeUnlink`.
* SQLite tables are lists of typed rows; the concurrent worker pools are
  sequentialized in selection order (workers only ever act on disjoint rows,
  and no claim here depends on interleaving).
-/

abbrev Bytes : Type := List Nat
abbrev Digest : Type := Bytes

/-- The flat content-addressed blob directory: filename (digest) ↦ contents. -/
abbrev Store : Type := List (Digest × Bytes)

/-- Reading the blob named by digest `d`, `None` when no such file exists. -/
def storeGet (st : Store) (d : Digest) : Option Bytes :=
  (st.find? fun p => p.1 == d).map (·.2)

/-- Atomic publish of contents `c` under name `d` (temp file + `os.replace`):
overwrites an existing file of that name, otherwise creates it. -/
def storeWrite (st : Store) (d : Digest) (c : Bytes) : Store :=
  if st.any fun p => p.1 == d then
    st.map fun p => if p.1 == d then (d, c) else p
  else st ++ [(d, c)]

/-- `Path.unlink(missing_ok=True)`. -/
def storeUnlink (st : Store) (d : Digest) : Store :=
  st.filter fun p => !(p.1 == d)

/-- The store is content-addressed: every blob file is named by the digest of
its contents.  Ingest and all filters only ever publish blobs under the digest
of what they write, so this invariant holds throughout the pipeline. -/
def StoreWF (h : Bytes → Digest) (st : Store) : Prop :=
  ∀ p ∈ st, p.1 = h p.2

/- Constants of `ImageBuilderConfig` (src/ota_image_builder/_configs.py). -/
namespace cfg

def READ_SIZE : Nat := 8 * 1024 ^ 2

def INLINE_THRESHOULD : Nat := 64

def BUNDLE_LOWER_THRESHOULD : Nat := 64

def BUNDLE_UPPER_THRESHOULD : Nat := 8192

def BUNDLE_SIZE : Nat := 64 * 1024 ^ 2

def BUNDLES_COMPRESSED_MAXIMUM_SUM : Nat := 64 * 1024 ^ 2

def COMPRESSION_LOWER_THRESHOLD : Nat := 1024

/-- `COMPRESSION_MIN_RATIO = 1.25`, as an exact rational. -/
def COMPRESSION_MIN_RATIO_Q : ℚ := 5 / 4

def SLICE_SIZE : Nat := 32 * 1024 ^ 2

def SLICE_UPDATE_BATCH_SIZE : Nat := 16

end cfg

/-- The tagged `filter_applied` union (`ota_image_libs._resource_filter`):
CompressFilter / BundleFilter / SliceFilter. -/
inductive FilterApplied : Type
  /-- CompressFilter: `resource_id` of the compressed blob's row
  (compression_alg is always zstd). -/
  | compressF (resource_id : Nat)
  /-- BundleFilter: row of the containing uncompressed bundle, byte offset
  within it, byte length. -/
  | bundleF (bundle_resource_id : Nat) (offset : Nat) (len : Nat)
  /-- SliceFilter: ordered resource ids whose blobs concatenate to this row. -/
  | sliceF (slices : List Nat)
deriving DecidableEq, Repr

/-- One row of the global `resource_table`. -/
structure RstRow : Type where
  resource_id : Nat
  digest : Digest
  size : Nat
  filter_applied : Option FilterApplied
deriving DecidableEq, Repr

/-- The shared state a resource filter acts on: the resource table and the
blob store. -/
structure PipeState : Type where
  table : List RstRow
  store : Store
deriving DecidableEq, Repr

/-- `orm_select_entry(digest=d)`: first row holding digest `d`.  (The digest
column is unique, so "first" is "the".) -/
def tableFindByDigest (tbl : List RstRow) (d : Digest) : Option RstRow :=
  tbl.find? fun r => r.digest == d

/-- One `UPDATE resource_table SET filter_applied = ... WHERE resource_id = rid`. -/
def updateFilterByRid (tbl : List RstRow) (rid : Nat) (fa : FilterApplied) : List RstRow :=
  tbl.map fun r =>
    if r.resource_id == rid then { r with filter_applied := some fa } else r

/-- Modelled from the spec: the resource-table schema lives in the external
`ota_image_libs` package; per the spec the table has `resource_id INTEGER
PRIMARY KEY` and a unique digest column, and `INSERT OR IGNORE` drops a row
colliding on either key. -/
def rstInsertIgnoreRow (tbl : List RstRow) (row : RstRow) : List RstRow :=
  if tbl.any fun r => r.digest == row.digest || r.resource_id == row.resource_id then tbl
  else tbl ++ [row]

/-- Modelled from the spec: an insert that omits `resource_id` lets SQLite
assign the INTEGER PRIMARY KEY as max(existing)+1; a duplicate digest is
ignored (`or_option="ignore"`). -/
def rstInsertIgnoreAuto (tbl : List RstRow) (d : Digest) (size : Nat) : List RstRow :=
  if (tableFindByDigest tbl d).isSome then tbl
  else tbl ++ [⟨(tbl.map (·.resource_id)).foldl max 0 + 1, d, size, none⟩]

/-- `count_entries_in_table` (src/.../v1/_resource_process/_db_utils.py):
`SELECT COUNT(*)`. -/
def count_entries_in_table (tbl : List RstRow) : Nat := tbl.length

/-! ## Bundle filter (src/.../v1/_resource_process/_bundle_filter.py) -/

/-- A `(resource_id, digest, size)` row selected for bundling. -/
structure EntryToBeBundled : Type where
  resource_id : Nat
  digest : Digest
  size : Nat
deriving DecidableEq, Repr

/-- `BundleResult`: digest and size of the uncompressed bundle, plus
`(resource_id, digest) ↦ (offset, len)` for every bundled entry
(insertion-ordered, mirroring the Python dict). -/
structure BundleResult : Type where
  bundle_digest : Digest
  bundle_size : Nat
  bundled_entries : List ((Nat × Digest) × (Nat × Nat))
deriving DecidableEq, Repr

/-- `BundleCompressedResult`. -/
structure BundleCompressedResult : Type where
  compressed_digest : Digest
  compressed_size : Nat
deriving DecidableEq, Repr

/-- The SQL selection of `BundleFilterProcesser.process`:
`WHERE size > lower AND size <= upper AND filter_applied IS NULL`,
projected to `(resource_id, digest, size)` in table order. -/
def sqlBundleSelect (lower upper : Nat) (tbl : List RstRow) : List EntryToBeBundled :=
  (tbl.filter fun r =>
      decide (lower < r.size) && decide (r.size ≤ upper) && r.filter_applied.isNone).map
    fun r => ⟨r.resource_id, r.digest, r.size⟩

/-- `_batch_entries_with_filter`, with the generator state (current batch and
its cumulative size) explicit.  The tail-batch guard
`size > expected_bundle_size * MINIMUM_BUNDLE_SIZE_RATIO` (ratio 0.05) is
rendered in exact arithmetic as `20 * size > expected_bundle_size`. -/
def batchEntriesWithFilter (excluded : List Digest) (expectedBundleSize : Nat) :
    List EntryToBeBundled → Nat → List EntryToBeBundled →
      List (Nat × List EntryToBeBundled)
  | [], curSize, curBatch =>
      if curBatch ≠ [] ∧ 20 * curSize > expectedBundleSize then [(curSize, curBatch)]
      else []
  | e :: rest, curSize, curBatch =>
      if excluded.contains e.digest then
        batchEntriesWithFilter excluded expectedBundleSize rest curSize curBatch
      else
        if curSize + e.size > expectedBundleSize then
          (curSize + e.size, curBatch ++ [e]) ::
            batchEntriesWithFilter excluded expectedBundleSize rest 0 []
        else
          batchEntriesWithFilter excluded expectedBundleSize rest (curSize + e.size)
            (curBatch ++ [e])

/-- All batches produced from a fresh generator state. -/
def batchEntries (excluded : List Digest) (expectedBundleSize : Nat)
    (entries : List EntryToBeBundled) : List (Nat × List EntryToBeBundled) :=
  batchEntriesWithFilter excluded expectedBundleSize entries 0 []

/-- The candidate stream actually fed into batch accumulation: the SQL
selection with protected digests skipped (`if _digest in excluded_resources:
continue`). -/
def bundleCandidates (protectedSet : List Digest) (lower upper : Nat)
    (tbl : List RstRow) : List EntryToBeBundled :=
  (sqlBundleSelect lower upper tbl).filter fun e => !(protectedSet.contains e.digest)

/-- The per-entry loop of `_generate_one_bundle`: read each entry's blob,
check `len(contents) == size` (error otherwise), accumulate the uncompressed
stream and the `(rs_id, digest) ↦ (offset, len)` records, unlink the blob.
`none` models the raised exception (missing blob or size mismatch). -/
def bundleLoop (store : Store) :
    List EntryToBeBundled → Nat → Bytes → List ((Nat × Digest) × (Nat × Nat)) →
      Option (Store × Nat × Bytes × List ((Nat × Digest) × (Nat × Nat)))
  | [], offset, acc, recs => some (store, offset, acc, recs)
  | e :: rest, offset, acc, recs =>
      match storeGet store e.digest with
      | none => none
      | some contents =>
          if contents.length ≠ e.size then none
          else
            bundleLoop (storeUnlink store e.digest) rest (offset + e.size)
              (acc ++ contents) (recs ++ [((e.resource_id, e.digest), (offset, e.size))])

/-- `_generate_one_bundle`: run the entry loop, hash the uncompressed stream,
compress it, hash and publish the compressed bundle blob. -/
def generateOneBundle (h compress : Bytes → Bytes) (resourceStore : Store)
    (entries : Nat × List EntryToBeBundled) :
    Option (Store × BundleResult × BundleCompressedResult) :=
  match bundleLoop resourceStore entries.2 0 [] [] with
  | none => none
  | some (store1, offset, allBytes, recs) =>
      let compressedBytes := compress allBytes
      let compressedDigest := h compressedBytes
      some (storeWrite store1 compressedDigest compressedBytes,
        ⟨h allBytes, offset, recs⟩, ⟨compressedDigest, compressedBytes.length⟩)

/-- `_commit_one_bundle`: upsert the compressed-bundle row (reusing an
existing row with the same digest), upsert the uncompressed-bundle row with
`CompressFilter`, then set every bundled entry's `filter_applied` to
`BundleFilter(bundle_id, offset, len)` by one UPDATE per entry. -/
def commitOneBundle (nextRsId : Nat) (bres : BundleResult)
    (cres : BundleCompressedResult) (tbl : List RstRow) : Nat × List RstRow :=
  let step1 : Nat × Nat × List RstRow :=
    match tableFindByDigest tbl cres.compressed_digest with
    | some row => (row.resource_id, nextRsId, tbl)
    | none =>
        (nextRsId, nextRsId + 1,
          tbl ++ [⟨nextRsId, cres.compressed_digest, cres.compressed_size, none⟩])
  let cid := step1.1
  let step2 : Nat × Nat × List RstRow :=
    match tableFindByDigest step1.2.2 bres.bundle_digest with
    | some row => (row.resource_id, step1.2.1, step1.2.2)
    | none =>
        (step1.2.1, step1.2.1 + 1,
          step1.2.2 ++
            [⟨step1.2.1, bres.bundle_digest, bres.bundle_size,
              some (.compressF cid)⟩])
  let tbl3 := bres.bundled_entries.foldl
    (fun t p => updateFilterByRid t p.1.1 (.bundleF step2.1 p.2.1 p.2.2)) step2.2.2
  (step2.2.1, tbl3)

/-- The batch loop of `BundleFilterProcesser.process`: before each batch,
stop once the accumulated compressed sizes exceed the cap; otherwise generate
the bundle (propagating failure) and accumulate its result. -/
def bundleGenLoop (h compress : Bytes → Bytes) (maxSum : Nat) (store : Store) :
    List (Nat × List EntryToBeBundled) → Nat →
      List (BundleResult × BundleCompressedResult) →
      Option (Store × List (BundleResult × BundleCompressedResult))
  | [], _, acc => some (store, acc)
  | b :: rest, csum, acc =>
      if csum > maxSum then some (store, acc)
      else
        match generateOneBundle h compress store b with
        | none => none
        | some (store', bres, cres) =>
            bundleGenLoop h compress maxSum store' rest
              (csum + cres.compressed_size) (acc ++ [(bres, cres)])

/-- `BundleFilterProcesser.process`: select, batch, generate all bundles,
then commit them starting from `next_rs_id = count_entries_in_table + 1`. -/
def bundleFilterRun (h compress : Bytes → Bytes) (protectedSet : List Digest)
    (lower upper expectedBundleSize maxSum : Nat) (s : PipeState) :
    Option PipeState :=
  let batches := batchEntries protectedSet expectedBundleSize
    (sqlBundleSelect lower upper s.table)
  match bundleGenLoop h compress maxSum s.store batches 0 [] with
  | none => none
  | some (store', results) =>
      let committed := results.foldl
        (fun (p : Nat × List RstRow) br => commitOneBundle p.1 br.1 br.2 p.2)
        (count_entries_in_table s.table + 1, s.table)
      some ⟨committed.2, store'⟩

/-! ## Compression filter (src/.../v1/_resource_process/_compression_filter.py) -/

/-- The eligibility test `origin_size / compressed_size >=
compression_ratio_threshold`, with the threshold `thrNum / thrDen` in exact
integer arithmetic: `origin / compressed ≥ num / den  ↔  num · compressed ≤
den · origin` whenever `compressed > 0` (zstd never produces empty output,
and the float comparison against 1.25 is exact). -/
def keepCompressed (thrNum thrDen originSize compressedSize : Nat) : Bool :=
  decide (thrNum * compressedSize ≤ thrDen * originSize)

/-- `_process_one_entry_at_thread` for one selected row: compress the origin
blob to a temp file; if the ratio threshold is met, publish the compressed
blob under its digest, unlink the origin blob and record
`resource_id ↦ (compressed_digest, compressed_size)`; otherwise discard the
temp file, leaving the store unchanged.  `none` models a worker exception
(origin blob missing), which interrupts the run. -/
def compressOneEntry (h compress : Bytes → Bytes) (thrNum thrDen : Nat) (store : Store)
    (e : EntryToBeBundled) : Option (Store × Option (Nat × Digest × Nat)) :=
  match storeGet store e.digest with
  | none => none
  | some contents =>
      let compressedBytes := compress contents
      let compressedDigest := h compressedBytes
      if keepCompressed thrNum thrDen e.size compressedBytes.length then
        some (storeUnlink (storeWrite store compressedDigest compressedBytes) e.digest,
          some (e.resource_id, compressedDigest, compressedBytes.length))
      else some (store, none)

/-- The SQL selection of `_process_compression`:
`WHERE size > lower AND filter_applied IS NULL`. -/
def sqlCompressionSelect (lower : Nat) (tbl : List RstRow) : List EntryToBeBundled :=
  (tbl.filter fun r => decide (lower < r.size) && r.filter_applied.isNone).map
    fun r => ⟨r.resource_id, r.digest, r.size⟩

/-- The dispatch loop of `_process_compression`: protected rows are skipped
(`continue`), the rest are compressed; the
`resource_id ↦ (digest, size)` records accumulate in order. -/
def compressionProcessLoop (h compress : Bytes → Bytes) (thrNum thrDen : Nat)
    (protectedSet : List Digest) (store : Store) :
    List EntryToBeBundled → List (Nat × Digest × Nat) →
      Option (Store × List (Nat × Digest × Nat))
  | [], acc => some (store, acc)
  | e :: rest, acc =>
      if protectedSet.contains e.digest then
        compressionProcessLoop h compress thrNum thrDen protectedSet store rest acc
      else
        match compressOneEntry h compress thrNum thrDen store e with
        | none => none
        | some (store', rec?) =>
            compressionProcessLoop h compress thrNum thrDen protectedSet store' rest
              (acc ++ rec?.toList)

/-- `CompressionFilterProcesser._update_db`: first insert-ignore a row for
every compressed digest, then for each compressed origin look the compressed
row back up by digest and point the origin's `filter_applied` at it.
(The looked-up row always exists — it was just inserted — so the impossible
`None` branch leaves the table unchanged.) -/
def compressionUpdateDb (tbl : List RstRow) (recs : List (Nat × Digest × Nat)) :
    List RstRow :=
  let tbl1 := recs.foldl (fun t r => rstInsertIgnoreAuto t r.2.1 r.2.2) tbl
  recs.foldl
    (fun t r =>
      match tableFindByDigest t r.2.1 with
      | some crow => updateFilterByRid t r.1 (.compressF crow.resource_id)
      | none => t)
    tbl1

/-- `CompressionFilterProcesser.process`: run the compression pass over the
selection, then commit the records. -/
def compressionRun (h compress : Bytes → Bytes) (thrNum thrDen : Nat)
    (protectedSet : List Digest) (lower : Nat) (s : PipeState) : Option PipeState :=
  match compressionProcessLoop h compress thrNum thrDen protectedSet s.store
      (sqlCompressionSelect lower s.table) [] with
  | none => none
  | some (store', recs) => some ⟨compressionUpdateDb s.table recs, store'⟩

/-! ## Slice filter (src/.../v1/_resource_process/_slice_filter.py) -/

/-- `int(slice_size * 1.5)`: the thread-local buffer size, which is both the
exact size of every non-final chunk (`readinto` fills the whole buffer) and
the maximum size of the final chunk. -/
def maxSliceSize (sliceSize : Nat) : Nat := 3 * sliceSize / 2

/-- The read loop of `_process_one_origin_at_thread`, with explicit fuel for
structural recursion (each iteration consumes at least one byte, so
`bs.length` fuel always suffices): while more than `M` bytes remain, read a
full `M`-byte buffer; then read the whole remainder as the final chunk. -/
def sliceChunksGo (fuel M : Nat) (bs : Bytes) : List Bytes :=
  match fuel with
  | 0 => [bs]
  | fuel' + 1 =>
      if 0 < M ∧ M < bs.length then bs.take M :: sliceChunksGo fuel' M (bs.drop M)
      else [bs]

/-- The chunk sequence the slice worker reads from an origin blob. -/
def sliceChunks (M : Nat) (bs : Bytes) : List Bytes :=
  sliceChunksGo bs.length M bs

/-- Insertion into the worker's `slices` dict: a repeated digest overwrites
in place (keeping its first position), a new digest appends. -/
def assocSet (l : List (Digest × Nat)) (k : Digest) (v : Nat) : List (Digest × Nat) :=
  if l.any fun p => p.1 == k then l.map fun p => if p.1 == k then (k, v) else p
  else l ++ [(k, v)]

/-- Dict lookup. -/
def assocGet (l : List (Digest × Nat)) (k : Digest) : Option Nat :=
  (l.find? fun p => p.1 == k).map (·.2)

/-- `_process_one_origin_at_thread`: chunk the origin blob, hash each chunk,
write it to the store under its digest and record `digest ↦ len` in the
`slices` dict; finally unlink the origin blob.  `none` models the worker
exception when the origin blob is missing. -/
def processOneOrigin (h : Bytes → Bytes) (M : Nat) (store : Store) (digest : Digest) :
    Option (Store × List (Digest × Nat)) :=
  match storeGet store digest with
  | none => none
  | some contents =>
      let written := (sliceChunks M contents).foldl
        (fun (p : Store × List (Digest × Nat)) c =>
          (storeWrite p.1 (h c) c, assocSet p.2 (h c) c.length))
        (store, [])
      some (storeUnlink written.1 digest, written.2)

/-- `_planning_rs_id`: assign a resource id to every slice digest of the
batch — the id of an existing row with that digest if there is one, else the
next fresh id.  (A digest planned twice is simply assigned twice, advancing
the counter both times; the dict keeps the last assignment.) -/
def planningRsId (tbl : List RstRow) :
    List (Nat × List (Digest × Nat)) → Nat → List (Digest × Nat) →
      Nat × List (Digest × Nat)
  | [], cur, acc => (cur, acc)
  | (_, slices) :: rest, cur, acc =>
      let step := slices.foldl
        (fun (p : Nat × List (Digest × Nat)) ds =>
          match tableFindByDigest tbl ds.1 with
          | some row => (p.1, assocSet p.2 ds.1 row.resource_id)
          | none => (p.1 + 1, assocSet p.2 ds.1 p.1))
        (cur, acc)
      planningRsId tbl rest step.1 step.2

/-- `_update_one_batch`: plan ids, insert-ignore a row per slice, then set
each origin's `filter_applied = SliceFilter(slices=[...])` in recorded
order. -/
def updateOneBatch (tbl : List RstRow) (batch : List (Nat × List (Digest × Nat)))
    (cur : Nat) : Nat × List RstRow :=
  let planning := planningRsId tbl batch cur []
  let tbl1 := batch.foldl
    (fun t e =>
      e.2.foldl
        (fun t2 ds => rstInsertIgnoreRow t2 ⟨(assocGet planning.2 ds.1).getD 0, ds.1, ds.2, none⟩)
        t)
    tbl
  let tbl2 := batch.foldl
    (fun t e =>
      updateFilterByRid t e.1 (.sliceF (e.2.map fun ds => (assocGet planning.2 ds.1).getD 0)))
    tbl1
  (planning.1, tbl2)

/-- `SliceFilterProcesser._update_db`: drain the queue, flushing a batch once
it exceeds the batch size, and flush the remainder at the end. -/
def sliceUpdateDb (batchSize : Nat) :
    List (Nat × List (Digest × Nat)) → List (Nat × List (Digest × Nat)) →
      Nat → List RstRow → List RstRow
  | [], batch, cur, tbl => if batch.isEmpty then tbl else (updateOneBatch tbl batch cur).2
  | e :: rest, batch, cur, tbl =>
      if (batch ++ [e]).length > batchSize then
        let step := updateOneBatch tbl (batch ++ [e]) cur
        sliceUpdateDb batchSize rest [] step.1 step.2
      else sliceUpdateDb batchSize rest (batch ++ [e]) cur tbl

/-- The dispatch loop of `_do_slicing`: protected rows are skipped, the rest
are sliced, and each produces a `(resource_id, slices)` queue entry. -/
def sliceProcessLoop (h : Bytes → Bytes) (M : Nat) (protectedSet : List Digest)
    (store : Store) :
    List EntryToBeBundled → List (Nat × List (Digest × Nat)) →
      Option (Store × List (Nat × List (Digest × Nat)))
  | [], acc => some (store, acc)
  | e :: rest, acc =>
      if protectedSet.contains e.digest then
        sliceProcessLoop h M protectedSet store rest acc
      else
        match processOneOrigin h M store e.digest with
        | none => none
        | some (store', slices) =>
            sliceProcessLoop h M protectedSet store' rest (acc ++ [(e.resource_id, slices)])

/-- The SQL selection of `_do_slicing`:
`WHERE size > 2 * slice_size AND filter_applied IS NULL`. -/
def sqlSliceSelect (sliceSize : Nat) (tbl : List RstRow) : List EntryToBeBundled :=
  (tbl.filter fun r => decide (2 * sliceSize < r.size) && r.filter_applied.isNone).map
    fun r => ⟨r.resource_id, r.digest, r.size⟩

/-- `SliceFilterProcesser.process`: slice every selected non-protected origin,
then update the database starting from `next_rs_id = count_entries_in_table + 1`. -/
def sliceRun (h : Bytes → Bytes) (protectedSet : List Digest)
    (sliceSize batchSize : Nat) (s : PipeState) : Option PipeState :=
  match sliceProcessLoop h (maxSliceSize sliceSize) protectedSet s.store
      (sqlSliceSelect sliceSize s.table) [] with
  | none => none
  | some (store', queue) =>
      some ⟨sliceUpdateDb batchSize queue [] (count_entries_in_table s.table + 1) s.table,
        store'⟩

/-! ## Ingest (src/.../v1/_resource_process/_rootfs_process.py and _db_utils.py) -/

/-- The fields of `os.stat_result` the ingest workers read.  Paths are opaque
identifiers (`Nat`); xattrs are an opaque key ↦ value list. -/
structure SrcStat : Type where
  nlink : Nat
  ino : Nat
  uid : Nat
  gid : Nat
  mode : Nat
  xattrs : List (Bytes × Bytes)
deriving DecidableEq, Repr

/-- A `ft_inode` row.  `xattrs` is `None` when the source map is empty
(`xattrs or None`). -/
structure FileTableInode : Type where
  inode_id : Int
  uid : Nat
  gid : Nat
  mode : Nat
  xattrs : Option (List (Bytes × Bytes))
deriving DecidableEq, Repr

/-- The typed rows the workers enqueue for the database-writer thread. -/
inductive QueueItem : Type
  | inodeItem (row : FileTableInode)
  | dirItem (path : Nat) (inode_id : Int)
  | nonRegularItem (path : Nat) (inode_id : Int) (meta : Option Bytes)
  | regularItem (path : Nat) (inode_id : Int) (resource_id : Nat)
  | ftResourceItem (resource_id : Nat) (digest : Digest) (size : Nat)
      (contents : Option Bytes)
  | rstItem (digest : Digest) (size : Nat)
deriving DecidableEq, Repr

/-- The mutable state of `SystemImageProcesser`: the inode counter
(`itertools.count(start=1)`), the `ResourceRegister` map, the blob store and
the queue of emitted rows. -/
structure IngestState : Type where
  counter : Nat
  reg : List (Digest × Nat)
  store : Store
  queue : List QueueItem
deriving DecidableEq, Repr

/-- `ResourceRegister.register_entry`: atomically look up the digest; if
present return `(False, existing_id)`, else insert it with
`id := len(map)` and return `(True, id)`. -/
def registerEntry (reg : List (Digest × Nat)) (k : Digest) :
    (Bool × Nat) × List (Digest × Nat) :=
  match assocGet reg k with
  | some v => ((false, v), reg)
  | none => ((true, reg.length), reg ++ [(k, reg.length)])

/-- `SystemImageProcesser._process_inode`: a non-hardlinked entry
(`st_nlink == 1`), or a real directory (not a symlink), draws a fresh inode
id from the per-image counter; any other entry uses `-st_ino`, so hardlinks
of one on-disk inode share one (duplicate-ignored) row. -/
def processInode (st : IngestState) (isSymlink isDir : Bool) (stat : SrcStat) :
    Int × IngestState :=
  let xa : Option (List (Bytes × Bytes)) :=
    if stat.xattrs.isEmpty then none else some stat.xattrs
  if stat.nlink == 1 || (!isSymlink && isDir) then
    ((st.counter : Int),
      { st with
        counter := st.counter + 1
        queue := st.queue ++ [.inodeItem ⟨(st.counter : Int), stat.uid, stat.gid, stat.mode, xa⟩] })
  else
    (-(stat.ino : Int),
      { st with
        queue := st.queue ++ [.inodeItem ⟨-(stat.ino : Int), stat.uid, stat.gid, stat.mode, xa⟩] })

/-- `SystemImageProcesser._regular_file_worker`: empty files use the reserved
resource id 0; files of at most `inline_threshold` bytes are hashed,
registered and (if newly registered) emitted as an inlined `FileTableResource`
row; larger files are hashed, registered and (if newly registered) emitted as
a `FileTableResource` row with `contents = None` plus a global resource-table
row, and their blob is copied into the store unless already present.  Finally
the `ft_regular_files` row is emitted (allocating the inode on the way). -/
def regularFileWorker (h : Bytes → Digest) (inlineThreshold : Nat)
    (st : IngestState) (path : Nat) (stat : SrcStat) (contents : Bytes) :
    IngestState :=
  let fsize := contents.length
  let step : Nat × IngestState :=
    if fsize == 0 then (0, st)
    else
      if fsize ≤ inlineThreshold then
        let r := registerEntry st.reg (h contents)
        let st1 := { st with reg := r.2 }
        if r.1.1 then
          (r.1.2,
            { st1 with
              queue := st1.queue ++ [.ftResourceItem r.1.2 (h contents) fsize (some contents)] })
        else (r.1.2, st1)
      else
        let r := registerEntry st.reg (h contents)
        let st1 := { st with reg := r.2 }
        if r.1.1 then
          (r.1.2,
            { st1 with
              queue := st1.queue ++
                [.ftResourceItem r.1.2 (h contents) fsize none, .rstItem (h contents) fsize]
              store :=
                if (storeGet st1.store (h contents)).isSome then st1.store
                else storeWrite st1.store (h contents) contents })
        else (r.1.2, st1)
  let inode := processInode step.2 false false stat
  { inode.2 with queue := inode.2.queue ++ [.regularItem path inode.1 step.1] }

/-- `process_sysimg_src` starts with the inode counter at 1 and the registry
pre-seeded with the empty-file digest at id 0. -/
def initIngestState (h : Bytes → Digest) : IngestState :=
  ⟨1, [(h [], 0)], [], []⟩

/-- Ingesting a list of regular files `(path, stat, contents)` in walk
order. -/
def ingestRegulars (h : Bytes → Digest) (inlineThreshold : Nat)
    (entries : List (Nat × SrcStat × Bytes)) (st : IngestState) : IngestState :=
  entries.foldl (fun s e => regularFileWorker h inlineThreshold s e.1 e.2.1 e.2.2) st

/-- The file-table database filled by `DataBaseBuilder._worker_thread`. -/
structure FileTableDB : Type where
  inodes : List FileTableInode
  dirs : List (Nat × Int)
  nonRegulars : List (Nat × Int × Option Bytes)
  regulars : List (Nat × Int × Nat)
  resources : List (Nat × Digest × Nat × Option Bytes)
  rst : List (Digest × Nat)
deriving DecidableEq, Repr

def emptyFileTableDB : FileTableDB := ⟨[], [], [], [], [], []⟩

/-- Routing one dequeued row into its table with `INSERT OR IGNORE`
(duplicate primary keys — hardlinked inode ids, re-seen digests — are
dropped; `ft_regular_files`/`ft_directories`/`ft_non_regular_files` key on
path, `ft_inode` on inode_id, `ft_resource` on resource_id, the resource
table on digest). -/
def dbInsertItem (db : FileTableDB) : QueueItem → FileTableDB
  | .inodeItem row =>
      if db.inodes.any fun r => r.inode_id == row.inode_id then db
      else { db with inodes := db.inodes ++ [row] }
  | .dirItem path iid =>
      if db.dirs.any fun r => r.1 == path then db
      else { db with dirs := db.dirs ++ [(path, iid)] }
  | .nonRegularItem path iid meta =>
      if db.nonRegulars.any fun r => r.1 == path then db
      else { db with nonRegulars := db.nonRegulars ++ [(path, iid, meta)] }
  | .regularItem path iid rid =>
      if db.regulars.any fun r => r.1 == path then db
      else { db with regulars := db.regulars ++ [(path, iid, rid)] }
  | .ftResourceItem rid d size contents =>
      if db.resources.any fun r => r.1 == rid then db
      else { db with resources := db.resources ++ [(rid, d, size, contents)] }
  | .rstItem d size =>
      if db.rst.any fun r => r.1 == d then db
      else { db with rst := db.rst ++ [(d, size)] }

/-- The database-writer thread draining the whole queue. -/
def applyQueue (db : FileTableDB) (q : List QueueItem) : FileTableDB :=
  q.foldl dbInsertItem db

/-! ## Reconstruction (the client-side decoding contract) -/

/-- Modelled from the spec: the on-device client reconstructs a
`SliceFilter` row by concatenating the slice rows' blobs in listed order
(the decoder itself lives in the client repository; the spec fixes its
semantics). -/
def reconstructSlice (tbl : List RstRow) (store : Store) (ids : List Nat) :
    Option Bytes :=
  (ids.mapM fun i =>
      ((tbl.find? fun r => r.resource_id == i).bind fun r => storeGet store r.digest)).map
    List.flatten

/-! ## Basic lemmas about the store -/

theorem find?_eq_none_of_any_false {α : Type} (p : α → Bool) (l : List α)
    (h : l.any p = false) : l.find? p = none := by
  induction l with
  | nil => rfl
  | cons a t ih =>
      simp only [List.any_cons, Bool.or_eq_false_iff] at h
      simp [List.find?, h.1, ih h.2]

theorem storeGet_write_self (st : Store) (d : Digest) (c : Bytes) :
    storeGet (storeWrite st d c) d = some c := by
  unfold storeWrite
  by_cases hany : st.any (fun p => p.1 == d) = true
  · simp only [hany, if_true]
    induction st with
    | nil => simp at hany
    | cons p t ih =>
        simp only [List.any_cons, Bool.or_eq_true] at hany
        by_cases hp : (p.1 == d) = true
        · simp [storeGet, List.find?, hp]
        · rcases hany with hh | ht
          · exact absurd hh hp
          · simpa [storeGet, List.find?, hp] using ih ht
  · simp only [hany, if_false]
    simp only [Bool.not_eq_true] at hany
    simp [storeGet, List.find?_append, find?_eq_none_of_any_false _ _ hany, List.find?]

theorem find?_map_preserve {α : Type} (f : α → α) (q : α → Bool) (l : List α)
    (hf : ∀ a, q (f a) = q a) (hfix : ∀ a, q a = true → f a = a) :
    (l.map f).find? q = l.find? q := by
  induction l with
  | nil => rfl
  | cons a t ih =>
      by_cases ha : q a = true
      · simp [List.find?, hf a, ha, hfix a ha]
      · simp only [Bool.not_eq_true] at ha
        simp [List.find?, hf a, ha, ih]

theorem find?_filter_preserve {α : Type} (r : α → Bool) (q : α → Bool) (l : List α)
    (himp : ∀ a, q a = true → r a = true) :
    (l.filter r).find? q = l.find? q := by
  induction l with
  | nil => rfl
  | cons a t ih =>
      by_cases hr : r a = true
      · by_cases ha : q a = true
        · simp [List.filter, hr, List.find?, ha]
        · simp only [Bool.not_eq_true] at ha
          simp [List.filter, hr, List.find?, ha, ih]
      · have ha : q a = false := by
          cases hqa : q a
          · rfl
          · exact absurd (himp a hqa) hr
        simp only [Bool.not_eq_true] at hr
        simp [List.filter, hr, List.find?, ha, ih]

theorem storeGet_write_ne (st : Store) (d d' : Digest) (c : Bytes)
    (hne : d' ≠ d) : storeGet (storeWrite st d c) d' = storeGet st d' := by
  have hdd : (d == d') = false := by
    simp only [beq_eq_false_iff_ne, ne_eq]
    exact fun hc => hne hc.symm
  unfold storeWrite
  by_cases hany : st.any (fun p => p.1 == d) = true
  · simp only [hany, if_true]
    unfold storeGet
    rw [find?_map_preserve]
    · intro a
      by_cases had : (a.1 == d) = true
      · have : a.1 = d := by simpa using had
        simp [had, hdd, this]
      · simp [had]
    · intro a haq
      have had' : a.1 = d' := by simpa using haq
      have : (a.1 == d) = false := by
        simp only [beq_eq_false_iff_ne, ne_eq, had']
        exact hne
      simp [this]
  · simp only [Bool.not_eq_true] at hany
    simp only [hany, Bool.false_eq_true, if_false]
    unfold storeGet
    rw [List.find?_append]
    have : List.find? (fun p => p.1 == d') [(d, c)] = none := by
      simp [List.find?, hdd]
    rw [this]
    simp

theorem storeGet_unlink_self (st : Store) (d : Digest) :
    storeGet (storeUnlink st d) d = none := by
  unfold storeUnlink storeGet
  apply Option.map_eq_none.2
  apply find?_eq_none_of_any_false
  induction st with
  | nil => rfl
  | cons p t ih =>
      by_cases hp : (p.1 == d) = true
      · simp [List.filter, hp, ih]
      · simp only [Bool.not_eq_true] at hp
        simp [List.filter, hp, ih]

theorem storeGet_unlink_ne (st : Store) (d d' : Digest) (hne : d' ≠ d) :
    storeGet (storeUnlink st d) d' = storeGet st d' := by
  unfold storeUnlink storeGet
  rw [find?_filter_preserve]
  intro a haq
  have had' : a.1 = d' := by simpa using haq
  have : (a.1 == d) = false := by
    simp only [beq_eq_false_iff_ne, ne_eq, had']
    exact hne
  simp [this]

theorem storeWF_write {h : Bytes → Digest} {st : Store} (hwf : StoreWF h st)
    (c : Bytes) : StoreWF h (storeWrite st (h c) c) := by
  unfold storeWrite
  by_cases hany : st.any (fun p => p.1 == h c) = true
  · simp only [hany, if_true]
    intro p hp
    rcases List.mem_map.1 hp with ⟨q, hq, rfl⟩
    by_cases hqd : (q.1 == h c) = true
    · simp [hqd]
    · simpa [hqd] using hwf q hq
  · simp only [hany, if_false]
    intro p hp
    rcases List.mem_append.1 hp with hin | hin
    · exact hwf p hin
    · simp only [List.mem_singleton] at hin
      simp [hin]

theorem storeWF_unlink {h : Bytes → Digest} {st : Store} (hwf : StoreWF h st)
    (d : Digest) : StoreWF h (storeUnlink st d) := fun p hp =>
  hwf p (List.mem_of_mem_filter hp)

theorem storeGet_wf {h : Bytes → Digest} {st : Store} (hwf : StoreWF h st)
    {d : Digest} {c : Bytes} (hget : storeGet st d = some c) : d = h c := by
  unfold storeGet at hget
  rcases Option.map_eq_some'.1 hget with ⟨p, hfind, hc⟩
  have hmem := List.mem_of_find?_eq_some hfind
  have hbeq := List.find?_some hfind
  have : p.1 = d := by simpa using hbeq
  subst hc
  exact this ▸ hwf p hmem

/-- Publishing any content-addressed blob cannot change what an existing
blob name reads back as (a collision forces identical contents). -/
theorem storeGet_write_of_wf {h : Bytes → Digest} {st : Store}
    (hinj : Function.Injective h) (hwf : StoreWF h st) {d : Digest} {c : Bytes}
    (hget : storeGet st d = some c) (c2 : Bytes) :
    storeGet (storeWrite st (h c2) c2) d = some c := by
  by_cases hd : d = h c2
  · have hchc : d = h c := storeGet_wf hwf hget
    have : c2 = c := hinj (by rw [← hd, ← hchc])
    rw [hd, storeGet_write_self, this]
  · rw [storeGet_write_ne st _ _ _ hd, hget]

/-! ## Chunking lemmas for the slice filter -/

theorem sliceChunksGo_ne_nil (fuel M : Nat) (bs : Bytes) :
    sliceChunksGo fuel M bs ≠ [] := by
  cases fuel with
  | zero => simp [sliceChunksGo]
  | succ f => unfold sliceChunksGo; split <;> simp

theorem sliceChunksGo_flatten (M fuel : Nat) (bs : Bytes) (hfuel : bs.length ≤ fuel) :
    (sliceChunksGo fuel M bs).flatten = bs := by
  induction fuel generalizing bs with
  | zero => simp [sliceChunksGo]
  | succ f ih =>
      unfold sliceChunksGo
      by_cases hc : 0 < M ∧ M < bs.length
      · rw [if_pos hc, List.flatten_cons,
          ih (bs.drop M) (by simp only [List.length_drop]; omega)]
        exact List.take_append_drop M bs
      · rw [if_neg hc]; simp

theorem sliceChunksGo_length_le (M fuel : Nat) (bs : Bytes) (hM : 0 < M)
    (hfuel : bs.length ≤ fuel) : ∀ c ∈ sliceChunksGo fuel M bs, c.length ≤ M := by
  induction fuel generalizing bs with
  | zero =>
      intro c hc
      simp only [sliceChunksGo, List.mem_singleton] at hc
      subst hc
      omega
  | succ f ih =>
      intro c hc
      unfold sliceChunksGo at hc
      by_cases hcc : 0 < M ∧ M < bs.length
      · rw [if_pos hcc] at hc
        rcases List.mem_cons.1 hc with rfl | hmem
        · simp only [List.length_take]; omega
        · exact ih (bs.drop M) (by simp only [List.length_drop]; omega) c hmem
      · rw [if_neg hcc] at hc
        push_neg at hcc
        simp only [List.mem_singleton] at hc
        subst hc
        exact hcc hM

theorem sliceChunksGo_dropLast (M fuel : Nat) (bs : Bytes) (hfuel : bs.length ≤ fuel) :
    ∀ c ∈ (sliceChunksGo fuel M bs).dropLast, c.length = M := by
  induction fuel generalizing bs with
  | zero => intro c hc; simp [sliceChunksGo] at hc
  | succ f ih =>
      intro c hc
      unfold sliceChunksGo at hc
      by_cases hcc : 0 < M ∧ M < bs.length
      · rw [if_pos hcc] at hc
        rcases hrest : sliceChunksGo f M (bs.drop M) with _ | ⟨r, rs⟩
        · exact absurd hrest (sliceChunksGo_ne_nil f M (bs.drop M))
        · rw [hrest, List.dropLast_cons₂] at hc
          rcases List.mem_cons.1 hc with rfl | hmem
          · simp only [List.length_take]; omega
          · have := ih (bs.drop M) (by simp only [List.length_drop]; omega)
            rw [hrest] at this
            exact this c hmem
      · rw [if_neg hcc] at hc
        simp at hc

theorem sliceChunksGo_getLast (M fuel : Nat) (bs : Bytes) (hM : 0 < M)
    (hfuel : bs.length ≤ fuel) (hpos : 0 < bs.length) :
    ∃ last, (sliceChunksGo fuel M bs).getLast? = some last ∧
      0 < last.length ∧ last.length ≤ M := by
  induction fuel generalizing bs with
  | zero => omega
  | succ f ih =>
      unfold sliceChunksGo
      by_cases hcc : 0 < M ∧ M < bs.length
      · rw [if_pos hcc]
        rcases ih (bs.drop M) (by simp only [List.length_drop]; omega)
            (by simp only [List.length_drop]; omega) with ⟨last, hl, hp, hle⟩
        refine ⟨last, ?_, hp, hle⟩
        rcases hrest : sliceChunksGo f M (bs.drop M) with _ | ⟨r, rs⟩
        · exact absurd hrest (sliceChunksGo_ne_nil f M (bs.drop M))
        · simp only [List.getLast?_cons_cons]
          first
          | exact hl
          | (rw [hrest] at hl; exact hl)
      · rw [if_neg hcc]
        push_neg at hcc
        exact ⟨bs, by simp, hpos, hcc hM⟩

theorem sliceChunksGo_count (M fuel : Nat) (bs : Bytes) (hM : 0 < M)
    (hfuel : bs.length ≤ fuel) (hpos : 0 < bs.length) :
    (sliceChunksGo fuel M bs).length = (bs.length - 1) / M + 1 := by
  induction fuel generalizing bs with
  | zero => omega
  | succ f ih =>
      unfold sliceChunksGo
      by_cases hcc : 0 < M ∧ M < bs.length
      · rw [if_pos hcc]
        simp only [List.length_cons]
        rw [ih (bs.drop M) (by simp only [List.length_drop]; omega)
          (by simp only [List.length_drop]; omega)]
        simp only [List.length_drop]
        have h1 : M ≤ bs.length - 1 := by omega
        have e : bs.length - M - 1 = bs.length - 1 - M := by omega
        rw [e, ← Nat.div_eq_sub_div hM h1]
      · rw [if_neg hcc]
        push_neg at hcc
        have : bs.length ≤ M := hcc hM
        simp only [List.length_singleton]
        rw [Nat.div_eq_of_lt (by omega)]

theorem sliceChunks_flatten (M : Nat) (bs : Bytes) :
    (sliceChunks M bs).flatten = bs :=
  sliceChunksGo_flatten M bs.length bs le_rfl

theorem sliceChunks_length_le (M : Nat) (bs : Bytes) (hM : 0 < M) :
    ∀ c ∈ sliceChunks M bs, c.length ≤ M :=
  sliceChunksGo_length_le M bs.length bs hM le_rfl

theorem sliceChunks_dropLast (M : Nat) (bs : Bytes) :
    ∀ c ∈ (sliceChunks M bs).dropLast, c.length = M :=
  sliceChunksGo_dropLast M bs.length bs le_rfl

theorem sliceChunks_getLast (M : Nat) (bs : Bytes) (hM : 0 < M)
    (hpos : 0 < bs.length) :
    ∃ last, (sliceChunks M bs).getLast? = some last ∧
      0 < last.length ∧ last.length ≤ M :=
  sliceChunksGo_getLast M bs.length bs hM le_rfl hpos

theorem sliceChunks_count (M : Nat) (bs : Bytes) (hM : 0 < M)
    (hpos : 0 < bs.length) :
    (sliceChunks M bs).length = (bs.length - 1) / M + 1 :=
  sliceChunksGo_count M bs.length bs hM le_rfl hpos

theorem sliceChunks_sum (M : Nat) (bs : Bytes) :
    ((sliceChunks M bs).map List.length).sum = bs.length := by
  rw [← List.length_flatten, sliceChunks_flatten]

theorem sliceChunks_ne_nil (M : Nat) (bs : Bytes) : sliceChunks M bs ≠ [] :=
  sliceChunksGo_ne_nil bs.length M bs

/-! ## Table utility lemmas -/

/-- Two rows of a table with no duplicate `resource_id` that share an id are
the same row. -/
theorem eq_of_mem_of_rid_eq {tbl : List RstRow}
    (hnodup : (tbl.map (·.resource_id)).Nodup) {r r' : RstRow} (hr : r ∈ tbl)
    (hr' : r' ∈ tbl) (he : r.resource_id = r'.resource_id) : r = r' := by
  induction tbl with
  | nil => cases hr
  | cons a t ih =>
      simp only [List.map_cons, List.nodup_cons] at hnodup
      rcases List.mem_cons.1 hr with rfl | hrt
      · rcases List.mem_cons.1 hr' with rfl | hrt'
        · rfl
        · exact absurd (he ▸ List.mem_map_of_mem (·.resource_id) hrt') hnodup.1
      · rcases List.mem_cons.1 hr' with rfl | hrt'
        · exact absurd (he ▸ List.mem_map_of_mem (·.resource_id) hrt) hnodup.1
        · exact ih hnodup.2 hrt hrt'

/-- An UPDATE targeting a different `resource_id` leaves a row in place. -/
theorem mem_updateFilterByRid_of_ne {tbl : List RstRow} {r : RstRow}
    (hr : r ∈ tbl) (rid : Nat) (fa : FilterApplied) (hne : r.resource_id ≠ rid) :
    r ∈ updateFilterByRid tbl rid fa := by
  unfold updateFilterByRid
  have : (fun row => if row.resource_id == rid then { row with filter_applied := some fa } else row) r = r := by
    simp [hne]
  exact this ▸ List.mem_map_of_mem _ hr

/-- Any UPDATE preserves `resource_id`-multisets... more precisely, every row
of the updated table has the `resource_id`, `digest` and `size` of the row it
came from, and a non-null `filter_applied` row never reverts to null. -/
theorem updateFilterByRid_shape {tbl : List RstRow} (rid : Nat) (fa : FilterApplied) :
    ∀ r' ∈ updateFilterByRid tbl rid fa, ∃ r ∈ tbl,
      r'.resource_id = r.resource_id ∧ r'.digest = r.digest ∧ r'.size = r.size ∧
      (r'.filter_applied = r.filter_applied ∨ r'.filter_applied = some fa) := by
  intro r' hr'
  rcases List.mem_map.1 hr' with ⟨r, hr, heq⟩
  by_cases hc : (r.resource_id == rid) = true
  · refine ⟨r, hr, ?_⟩
    simp only [hc, if_true] at heq
    subst heq
    simp
  · refine ⟨r, hr, ?_⟩
    simp only [hc, Bool.false_eq_true, if_false] at heq
    subst heq
    simp

/-- Insert-ignore never removes a row. -/
theorem mem_rstInsertIgnoreRow {tbl : List RstRow} {r : RstRow} (hr : r ∈ tbl)
    (row : RstRow) : r ∈ rstInsertIgnoreRow tbl row := by
  unfold rstInsertIgnoreRow
  split
  · exact hr
  · exact List.mem_append_left _ hr

/-- Auto-id insert-ignore never removes a row. -/
theorem mem_rstInsertIgnoreAuto {tbl : List RstRow} {r : RstRow} (hr : r ∈ tbl)
    (d : Digest) (size : Nat) : r ∈ rstInsertIgnoreAuto tbl d size := by
  unfold rstInsertIgnoreAuto
  split
  · exact hr
  · exact List.mem_append_left _ hr

/-! ## Claim C10 -/

/-- C10: for every origin the slice filter processes (its size exceeds
`2·SLICE_SIZE`), every chunk except the last is exactly
`int(1.5·SLICE_SIZE)` bytes, the last chunk is non-empty and at most that
size, and the origin splits into exactly `(S-1) / int(1.5·SLICE_SIZE) + 1`
chunks whose sizes sum to `S`. -/
theorem c10_slice_sizes_and_count (sliceSize : Nat) (bs : Bytes)
    (hs : 1 ≤ sliceSize) (hsel : 2 * sliceSize < bs.length) :
    (∀ c ∈ (sliceChunks (maxSliceSize sliceSize) bs).dropLast,
        c.length = maxSliceSize sliceSize) ∧
    (∃ last, (sliceChunks (maxSliceSize sliceSize) bs).getLast? = some last ∧
        0 < last.length ∧ last.length ≤ maxSliceSize sliceSize) ∧
    (sliceChunks (maxSliceSize sliceSize) bs).length =
      (bs.length - 1) / maxSliceSize sliceSize + 1 ∧
    ((sliceChunks (maxSliceSize sliceSize) bs).map List.length).sum = bs.length := by
  have hM : 0 < maxSliceSize sliceSize := by
    unfold maxSliceSize
    exact Nat.div_pos (by omega) (by norm_num)
  have hpos : 0 < bs.length := by omega
  exact ⟨sliceChunks_dropLast _ bs, sliceChunks_getLast _ bs hM hpos,
    sliceChunks_count _ bs hM hpos, sliceChunks_sum _ bs⟩

theorem c10_slice_sizes_and_count_witness :
    1 ≤ 2 ∧ 2 * 2 < ([9, 8, 7, 6, 5] : Bytes).length ∧
      ((sliceChunks (maxSliceSize 2) [9, 8, 7, 6, 5]).map List.length).sum =
        ([9, 8, 7, 6, 5] : Bytes).length :=
  ⟨by decide, by decide,
    (c10_slice_sizes_and_count 2 [9, 8, 7, 6, 5] (by decide) (by decide)).2.2.2⟩

/-! ## Claim C4 -/

/-- C4 (amended): a row is fed to the bundle batcher iff
`filter_applied IS NULL`, `BUNDLE_LOWER < size ≤ BUNDLE_UPPER` and its digest
is not protected; the defaults are 64 bytes and 8192 bytes (8 KiB — the
claim's 4 KiB does not match the source), so a row of size exactly 8192 is
included and one of 8193 is excluded. -/
theorem c4_bundle_candidate_predicate (protectedSet : List Digest)
    (tbl : List RstRow) (hnodup : (tbl.map (·.resource_id)).Nodup) (r : RstRow)
    (hr : r ∈ tbl) :
    ((⟨r.resource_id, r.digest, r.size⟩ : EntryToBeBundled) ∈
        bundleCandidates protectedSet cfg.BUNDLE_LOWER_THRESHOULD
          cfg.BUNDLE_UPPER_THRESHOULD tbl ↔
      (r.filter_applied = none ∧ 64 < r.size ∧ r.size ≤ 8192 ∧
        protectedSet.contains r.digest = false)) ∧
    cfg.BUNDLE_LOWER_THRESHOULD = 64 ∧ cfg.BUNDLE_UPPER_THRESHOULD = 8192 := by
  refine ⟨?_, rfl, rfl⟩
  unfold bundleCandidates sqlBundleSelect
  constructor
  · intro hmem
    rcases List.mem_filter.1 hmem with ⟨hmap, hnp⟩
    rcases List.mem_map.1 hmap with ⟨r', hr', heq⟩
    rcases List.mem_filter.1 hr' with ⟨hr't, hpred⟩
    have hrid : r'.resource_id = r.resource_id := congrArg EntryToBeBundled.resource_id heq
    have : r' = r := eq_of_mem_of_rid_eq hnodup hr't hr hrid
    subst this
    simp only [Bool.and_eq_true, decide_eq_true_eq, Option.isNone_iff_eq_none] at hpred
    simp only [Bool.not_eq_true'] at hnp
    have hdig : r'.digest = (⟨r'.resource_id, r'.digest, r'.size⟩ : EntryToBeBundled).digest := rfl
    exact ⟨hpred.2, hpred.1.1, hpred.1.2, hnp⟩
  · rintro ⟨hfa, hlo, hhi, hnp⟩
    apply List.mem_filter.2
    refine ⟨List.mem_map.2 ⟨r, List.mem_filter.2 ⟨hr, ?_⟩, rfl⟩, ?_⟩
    · simp only [Bool.and_eq_true, decide_eq_true_eq, Option.isNone_iff_eq_none]
      exact ⟨⟨hlo, hhi⟩, hfa⟩
    · simp only [hnp, Bool.not_false]

/-- C4 counterexample: with the default configuration, a null-filter row of
size 8192 — twice the claim's stated 4 KiB upper bound — is a bundle
candidate. -/
theorem c4_counterexample :
    cfg.BUNDLE_UPPER_THRESHOULD ≠ 4096 ∧
      (⟨1, [0], 8192⟩ : EntryToBeBundled) ∈
        bundleCandidates [] cfg.BUNDLE_LOWER_THRESHOULD cfg.BUNDLE_UPPER_THRESHOULD
          [⟨1, [0], 8192, none⟩] ∧
      ¬ (8192 ≤ 4096) := by decide

theorem c4_bundle_candidate_predicate_witness :
    (([⟨1, [0], 8192, none⟩] : List RstRow).map (·.resource_id)).Nodup ∧
      (⟨1, [0], 8192, none⟩ : RstRow) ∈ ([⟨1, [0], 8192, none⟩] : List RstRow) ∧
      cfg.BUNDLE_LOWER_THRESHOULD = 64 ∧ cfg.BUNDLE_UPPER_THRESHOULD = 8192 :=
  ⟨by decide, by decide,
    (c4_bundle_candidate_predicate [] [⟨1, [0], 8192, none⟩] (by decide)
      ⟨1, [0], 8192, none⟩ (by decide)).2⟩

/-! ## Claim C6 -/

/-- C6: a compression candidate's compressed version is kept iff
`origin_size / compressed_size ≥ COMPRESSION_MIN_RATIO` (5/4, the threshold
itself counting as eligible); when kept, the temp file is renamed to the
compressed digest's blob name, the original blob is unlinked and the result
recorded; when not kept the temp file is discarded and the store is left
unchanged. -/
theorem c6_compression_ratio_keep (h compress : Bytes → Bytes)
    (hinj : Function.Injective h) (store : Store) (hwf : StoreWF h store)
    (e : EntryToBeBundled) (c : Bytes) (hget : storeGet store e.digest = some c)
    (hpos : 0 < (compress c).length) (hne : compress c ≠ c) :
    (keepCompressed 5 4 e.size (compress c).length = true ↔
        (e.size : ℚ) / ((compress c).length : ℚ) ≥ cfg.COMPRESSION_MIN_RATIO_Q) ∧
    (keepCompressed 5 4 e.size (compress c).length = true →
        compressOneEntry h compress 5 4 store e =
          some (storeUnlink (storeWrite store (h (compress c)) (compress c)) e.digest,
            some (e.resource_id, h (compress c), (compress c).length)) ∧
        storeGet (storeUnlink (storeWrite store (h (compress c)) (compress c)) e.digest)
            (h (compress c)) = some (compress c) ∧
        storeGet (storeUnlink (storeWrite store (h (compress c)) (compress c)) e.digest)
            e.digest = none) ∧
    (keepCompressed 5 4 e.size (compress c).length = false →
        compressOneEntry h compress 5 4 store e = some (store, none)) := by
  have hdig : e.digest = h c := storeGet_wf hwf hget
  have hdne : h (compress c) ≠ e.digest := by
    intro hcontra
    exact hne (hinj (by rw [hcontra, hdig]))
  refine ⟨?_, ?_, ?_⟩
  · unfold keepCompressed cfg.COMPRESSION_MIN_RATIO_Q
    rw [decide_eq_true_eq, ge_iff_le,
      div_le_div_iff₀ (by norm_num) (by exact_mod_cast hpos)]
    constructor
    · intro hk
      exact_mod_cast by linarith [hk]
    · intro hq
      have : (5 : ℚ) * ((compress c).length : ℚ) ≤ (e.size : ℚ) * 4 := hq
      have h2 : (5 * (compress c).length : ℚ) ≤ (4 * e.size : ℚ) := by linarith
      exact_mod_cast h2
  · intro hk
    refine ⟨?_, ?_, storeGet_unlink_self _ _⟩
    · unfold compressOneEntry
      rw [hget]
      simp only [hk, if_true]
    · rw [storeGet_unlink_ne _ _ _ hdne, storeGet_write_self]
  · intro hk
    unfold compressOneEntry
    rw [hget]
    simp only [hk, Bool.false_eq_true, if_false]

theorem c6_compression_ratio_keep_witness :
    storeGet [([3, 3, 3, 3, 3], [3, 3, 3, 3, 3])] [3, 3, 3, 3, 3] =
        some [3, 3, 3, 3, 3] ∧
      keepCompressed 5 4 5 4 = true ∧
      compressOneEntry id (fun bs => bs.take 4) 5 4
          [([3, 3, 3, 3, 3], [3, 3, 3, 3, 3])] ⟨1, [3, 3, 3, 3, 3], 5⟩ =
        some ([([3, 3, 3, 3], [3, 3, 3, 3])], some (1, [3, 3, 3, 3], 4)) := by
  have happ := c6_compression_ratio_keep id (fun bs => bs.take 4)
    (fun a b hab => hab) [([3, 3, 3, 3, 3], [3, 3, 3, 3, 3])]
    (by unfold StoreWF; decide) ⟨1, [3, 3, 3, 3, 3], 5⟩ [3, 3, 3, 3, 3]
    (by decide) (by decide) (by decide)
  refine ⟨by decide, by decide, ?_⟩
  have h1 := (happ.2.1 (by decide)).1
  rw [h1]
  decide

/-! ## Claim C9 -/

theorem bundleLoop_none_iff (entries : List EntryToBeBundled) :
    ∀ (store : Store), (entries.map (·.digest)).Nodup →
      (∀ e ∈ entries, ∃ c, storeGet store e.digest = some c) →
      ∀ offset acc recs,
        (bundleLoop store entries offset acc recs = none ↔
          ∃ e ∈ entries, ∃ c, storeGet store e.digest = some c ∧ c.length ≠ e.size) := by
  induction entries with
  | nil =>
      intro store _ _ offset acc recs
      simp [bundleLoop]
  | cons e rest ih =>
      intro store hnodup hpresent offset acc recs
      rcases hpresent e (List.mem_cons_self e rest) with ⟨c, hc⟩
      simp only [List.map_cons, List.nodup_cons] at hnodup
      have hdne : ∀ e' ∈ rest, e'.digest ≠ e.digest := by
        intro e' he' hcontra
        exact hnodup.1 (hcontra ▸ List.mem_map_of_mem (·.digest) he')
      have hred : bundleLoop store (e :: rest) offset acc recs =
          if c.length ≠ e.size then none
          else bundleLoop (storeUnlink store e.digest) rest (offset + e.size) (acc ++ c)
            (recs ++ [((e.resource_id, e.digest), (offset, e.size))]) := by
        rw [show bundleLoop store (e :: rest) offset acc recs =
            match storeGet store e.digest with
            | none => none
            | some contents =>
                if contents.length ≠ e.size then none
                else bundleLoop (storeUnlink store e.digest) rest (offset + e.size)
                  (acc ++ contents) (recs ++ [((e.resource_id, e.digest), (offset, e.size))])
          from rfl, hc]
      rw [hred]
      by_cases hlen : c.length ≠ e.size
      · rw [if_pos hlen]
        constructor
        · intro _
          exact ⟨e, List.mem_cons_self e rest, c, hc, hlen⟩
        · intro _
          rfl
      · rw [if_neg hlen]
        have hget' : ∀ e' ∈ rest, storeGet (storeUnlink store e.digest) e'.digest =
            storeGet store e'.digest := by
          intro e' he'
          exact storeGet_unlink_ne store e.digest e'.digest (hdne e' he')
        rw [ih (storeUnlink store e.digest) hnodup.2
          (fun e' he' => (hget' e' he') ▸ hpresent e' (List.mem_cons_of_mem e he'))]
        constructor
        · rintro ⟨e', he', c', hc', hne'⟩
          exact ⟨e', List.mem_cons_of_mem e he', c', (hget' e' he') ▸ hc', hne'⟩
        · rintro ⟨e', he', c', hc', hne'⟩
          rcases List.mem_cons.1 he' with rfl | he'r
          · rw [hc] at hc'
            cases hc'
            exact absurd hne' (by push_neg at hlen; simp [hlen])
          · exact ⟨e', he'r, c', (hget' e' he'r) ▸ hc', hne'⟩

/-- C9: while writing one bundle, each candidate's blob is read and checked
against the row's recorded size; a mismatch makes `_generate_one_bundle`
raise (modelled as `none`), and that failure aborts the whole batch loop —
no bundle containing that entry is produced. -/
theorem c9_bundle_size_mismatch_fails (h compress : Bytes → Bytes)
    (store : Store) (bsz : Nat) (entries : List EntryToBeBundled)
    (hnodup : (entries.map (·.digest)).Nodup)
    (hpresent : ∀ e ∈ entries, ∃ c, storeGet store e.digest = some c) :
    (generateOneBundle h compress store (bsz, entries) = none ↔
      ∃ e ∈ entries, ∃ c, storeGet store e.digest = some c ∧ c.length ≠ e.size) ∧
    (∀ maxSum csum acc rest, csum ≤ maxSum →
      generateOneBundle h compress store (bsz, entries) = none →
      bundleGenLoop h compress maxSum store ((bsz, entries) :: rest) csum acc = none) := by
  constructor
  · unfold generateOneBundle
    rcases hloop : bundleLoop store entries 0 [] [] with _ | ⟨st1, off, bytes, recs⟩
    · simp only [true_iff]
      exact (bundleLoop_none_iff entries store hnodup hpresent 0 [] []).1 hloop
    · simp only []
      constructor
      · intro hcontra
        exact absurd hcontra (by simp)
      · intro hex
        have := (bundleLoop_none_iff entries store hnodup hpresent 0 [] []).2 hex
        rw [hloop] at this
        cases this
  · intro maxSum csum acc rest hle hgen
    unfold bundleGenLoop
    have : ¬ csum > maxSum := by omega
    simp only [this, if_false]
    rw [hgen]

theorem c9_bundle_size_mismatch_fails_witness :
    (([⟨1, [1], 2⟩] : List EntryToBeBundled).map (·.digest)).Nodup ∧
      storeGet [([1], [1])] [1] = some [1] ∧
      generateOneBundle id id [([1], [1])] (2, [⟨1, [1], 2⟩]) = none ∧
      bundleGenLoop id id 100 [([1], [1])] [(2, [⟨1, [1], 2⟩])] 0 [] = none := by
  have happ := c9_bundle_size_mismatch_fails id id [([1], [1])] 2 [⟨1, [1], 2⟩]
    (by decide) (fun e he => by fin_cases he; exact ⟨[1], by decide⟩)
  have hgen : generateOneBundle id id [([1], [1])] (2, [⟨1, [1], 2⟩]) = none :=
    happ.1.2 ⟨⟨1, [1], 2⟩, by decide, [1], by decide, by decide⟩
  exact ⟨by decide, by decide, hgen, happ.2 100 0 [] [] (by decide) hgen⟩

/-! ## Write/record fold lemmas for the slice worker -/

theorem foldWrite_wf (h : Bytes → Bytes) (cs : List Bytes) :
    ∀ st : Store, StoreWF h st →
      StoreWF h (cs.foldl (fun s c => storeWrite s (h c) c) st) := by
  induction cs with
  | nil => intro st hwf; exact hwf
  | cons a t ih => intro st hwf; exact ih _ (storeWF_write hwf a)

theorem foldWrite_preserve (h : Bytes → Bytes) (hinj : Function.Injective h)
    (cs : List Bytes) :
    ∀ (st : Store) (d : Digest) (x : Bytes), StoreWF h st →
      storeGet st d = some x →
      storeGet (cs.foldl (fun s c => storeWrite s (h c) c) st) d = some x := by
  induction cs with
  | nil => intro st d x _ hget; exact hget
  | cons a t ih =>
      intro st d x hwf hget
      exact ih _ d x (storeWF_write hwf a) (storeGet_write_of_wf hinj hwf hget a)

theorem foldWrite_get (h : Bytes → Bytes) (hinj : Function.Injective h)
    (cs : List Bytes) :
    ∀ st : Store, StoreWF h st → ∀ c ∈ cs,
      storeGet (cs.foldl (fun s c => storeWrite s (h c) c) st) (h c) = some c := by
  induction cs with
  | nil => intro st _ c hc; cases hc
  | cons a t ih =>
      intro st hwf c hc
      rcases List.mem_cons.1 hc with rfl | hct
      · exact foldWrite_preserve h hinj t _ (h c) c (storeWF_write hwf c)
          (storeGet_write_self st (h c) c)
      · exact ih _ (storeWF_write hwf a) c hct

theorem assocSet_mem_self (a : List (Digest × Nat)) (k : Digest) (v : Nat) :
    (k, v) ∈ assocSet a k v := by
  unfold assocSet
  by_cases hany : a.any (fun p => p.1 == k) = true
  · rw [if_pos hany]
    rcases List.any_eq_true.1 hany with ⟨p, hp, hpk⟩
    exact List.mem_map.2 ⟨p, hp, by simp [hpk]⟩
  · rw [if_neg hany]
    exact List.mem_append_right _ (List.mem_singleton.2 rfl)

theorem assocSet_mem_of_ne {a : List (Digest × Nat)} {k0 : Digest} {v0 : Nat}
    (hmem : (k0, v0) ∈ a) (k : Digest) (v : Nat) (hne : k0 ≠ k) :
    (k0, v0) ∈ assocSet a k v := by
  unfold assocSet
  by_cases hany : a.any (fun p => p.1 == k) = true
  · rw [if_pos hany]
    have : ((k0, v0).1 == k) = false := by simpa using hne
    exact List.mem_map.2 ⟨(k0, v0), hmem, by simp [this]⟩
  · rw [if_neg hany]
    exact List.mem_append_left _ hmem

theorem assocSet_mem_inv {a : List (Digest × Nat)} {k : Digest} {v : Nat}
    {p : Digest × Nat} (hp : p ∈ assocSet a k v) : p ∈ a ∨ p = (k, v) := by
  unfold assocSet at hp
  by_cases hany : a.any (fun q => q.1 == k) = true
  · rw [if_pos hany] at hp
    rcases List.mem_map.1 hp with ⟨q, hq, heq⟩
    by_cases hqk : (q.1 == k) = true
    · right; rw [← heq]; simp [hqk]
    · left; rw [← heq]; simpa [hqk] using hq
  · rw [if_neg hany] at hp
    rcases List.mem_append.1 hp with hin | hin
    · exact Or.inl hin
    · exact Or.inr (List.mem_singleton.1 hin)

theorem foldAssoc_mem (h : Bytes → Bytes) (hinj : Function.Injective h)
    (cs : List Bytes) :
    ∀ (a : List (Digest × Nat)) (c : Bytes), c ∈ cs →
      (h c, c.length) ∈ cs.foldl (fun a c => assocSet a (h c) c.length) a := by
  induction cs with
  | nil => intro a c hc; cases hc
  | cons b t ih =>
      intro a c hc
      rcases List.mem_cons.1 hc with rfl | hct
      · -- set here, then preserved through the rest
        have haux : ∀ (t' : List Bytes) (a' : List (Digest × Nat)),
            (h c, c.length) ∈ a' →
            (h c, c.length) ∈ t'.foldl (fun a c => assocSet a (h c) c.length) a' := by
          intro t'
          induction t' with
          | nil => intro a' hbase; exact hbase
          | cons b' t'' ih' =>
              intro a' hbase
              simp only [List.foldl_cons]
              by_cases hbb : h b' = h c
              · have : b' = c := hinj hbb
                subst this
                exact ih' _ (assocSet_mem_self _ _ _)
              · exact ih' _ (assocSet_mem_of_ne hbase (h b') b'.length
                  (fun hcontra => hbb hcontra.symm))
        exact haux t (assocSet a (h c) c.length) (assocSet_mem_self a (h c) c.length)
      · exact ih _ c hct

theorem foldAssoc_inv (h : Bytes → Bytes) (cs : List Bytes) :
    ∀ (a : List (Digest × Nat)) (p : Digest × Nat),
      p ∈ cs.foldl (fun a c => assocSet a (h c) c.length) a →
      p ∈ a ∨ ∃ c ∈ cs, p = (h c, c.length) := by
  induction cs with
  | nil => intro a p hp; exact Or.inl hp
  | cons b t ih =>
      intro a p hp
      rcases ih _ p hp with hin | ⟨c, hc, rfl⟩
      · rcases assocSet_mem_inv hin with hin' | rfl
        · exact Or.inl hin'
        · exact Or.inr ⟨b, List.mem_cons_self b t, rfl⟩
      · exact Or.inr ⟨c, List.mem_cons_of_mem b hc, rfl⟩

theorem pairFold_split (h : Bytes → Bytes) (cs : List Bytes) :
    ∀ (st : Store) (sl : List (Digest × Nat)),
      cs.foldl (fun (p : Store × List (Digest × Nat)) c =>
          (storeWrite p.1 (h c) c, assocSet p.2 (h c) c.length)) (st, sl) =
        (cs.foldl (fun s c => storeWrite s (h c) c) st,
          cs.foldl (fun a c => assocSet a (h c) c.length) sl) := by
  induction cs with
  | nil => intro st sl; rfl
  | cons b t ih => intro st sl; exact ih _ _

/-! ## Claim C5 -/

/-- C5 (amended): slicing one origin (selected only when its size exceeds
`2·SLICE_SIZE`) repeatedly reads chunks that fill the whole
`int(1.5·SLICE_SIZE)`-byte buffer — so every non-final chunk is exactly
`int(1.5·SLICE_SIZE)` bytes, not "up to SLICE_SIZE" — until at most
`1.5·SLICE_SIZE` bytes remain, then reads one final chunk holding the whole
remainder; every chunk is hashed, written to the store under its own digest,
and recorded (keyed by digest, first occurrence kept) with its length. -/
theorem c5_slice_chunking_amended (h : Bytes → Bytes)
    (hinj : Function.Injective h) (sliceSize : Nat) (hs : 1 ≤ sliceSize)
    (store : Store) (hwf : StoreWF h store) (d : Digest) (bs : Bytes)
    (hget : storeGet store d = some bs) (hsel : 2 * sliceSize < bs.length) :
    ∃ store' slices,
      processOneOrigin h (maxSliceSize sliceSize) store d = some (store', slices) ∧
      (∀ c ∈ (sliceChunks (maxSliceSize sliceSize) bs).dropLast,
          c.length = maxSliceSize sliceSize) ∧
      (∃ last, (sliceChunks (maxSliceSize sliceSize) bs).getLast? = some last ∧
          0 < last.length ∧ last.length ≤ maxSliceSize sliceSize) ∧
      (sliceChunks (maxSliceSize sliceSize) bs).flatten = bs ∧
      (∀ c ∈ sliceChunks (maxSliceSize sliceSize) bs,
          storeGet store' (h c) = some c ∧ (h c, c.length) ∈ slices) ∧
      (∀ p ∈ slices, ∃ c ∈ sliceChunks (maxSliceSize sliceSize) bs,
          p = (h c, c.length)) ∧
      storeGet store' d = none := by
  have hM : 0 < maxSliceSize sliceSize := by
    unfold maxSliceSize
    exact Nat.div_pos (by omega) (by norm_num)
  have hMlt : maxSliceSize sliceSize < bs.length := by
    have : maxSliceSize sliceSize ≤ 2 * sliceSize := by
      unfold maxSliceSize
      omega
    omega
  have hdig : d = h bs := storeGet_wf hwf hget
  have hchne : ∀ c ∈ sliceChunks (maxSliceSize sliceSize) bs, h c ≠ d := by
    intro c hc hcontra
    have hlen := sliceChunks_length_le _ bs hM c hc
    have hcbs : c = bs := hinj (hcontra.trans hdig)
    rw [hcbs] at hlen
    omega
  refine ⟨storeUnlink ((sliceChunks (maxSliceSize sliceSize) bs).foldl
        (fun s c => storeWrite s (h c) c) store) d,
    (sliceChunks (maxSliceSize sliceSize) bs).foldl
        (fun a c => assocSet a (h c) c.length) [],
    ?_, sliceChunks_dropLast _ bs,
    sliceChunks_getLast _ bs hM (by omega), sliceChunks_flatten _ bs, ?_, ?_, ?_⟩
  · have hred : processOneOrigin h (maxSliceSize sliceSize) store d =
        some (storeUnlink ((sliceChunks (maxSliceSize sliceSize) bs).foldl
            (fun (p : Store × List (Digest × Nat)) c =>
              (storeWrite p.1 (h c) c, assocSet p.2 (h c) c.length)) (store, [])).1 d,
          ((sliceChunks (maxSliceSize sliceSize) bs).foldl
            (fun (p : Store × List (Digest × Nat)) c =>
              (storeWrite p.1 (h c) c, assocSet p.2 (h c) c.length)) (store, [])).2) := by
      unfold processOneOrigin
      rw [hget]
    rw [hred, pairFold_split]
  · intro c hc
    refine ⟨?_, foldAssoc_mem h hinj _ [] c hc⟩
    exact (storeGet_unlink_ne _ _ _ (hchne c hc)).trans
      (foldWrite_get h hinj _ store hwf c hc)
  · intro p hp
    rcases foldAssoc_inv h _ [] p hp with hin | hex
    · cases hin
    · exact hex
  · exact storeGet_unlink_self _ d

/-- C5 counterexample: with `slice_size = 4` the worker's very first chunk
out of a 14-byte origin is `int(1.5·4) = 6` bytes — larger than
`SLICE_SIZE = 4` — so "chunks of up to SLICE_SIZE bytes" is false; the run
records a 6-byte slice row. -/
theorem c5_chunk_exceeds_slice_size_counterexample :
    sliceRun id [] 4 16
        ⟨[⟨1, [0, 1, 2, 3, 4, 5, 6, 7, 8, 9, 10, 11, 12, 13], 14, none⟩],
          [([0, 1, 2, 3, 4, 5, 6, 7, 8, 9, 10, 11, 12, 13],
            [0, 1, 2, 3, 4, 5, 6, 7, 8, 9, 10, 11, 12, 13])]⟩ =
      some ⟨[⟨1, [0, 1, 2, 3, 4, 5, 6, 7, 8, 9, 10, 11, 12, 13], 14,
              some (.sliceF [2, 3, 4])⟩,
            ⟨2, [0, 1, 2, 3, 4, 5], 6, none⟩,
            ⟨3, [6, 7, 8, 9, 10, 11], 6, none⟩,
            ⟨4, [12, 13], 2, none⟩],
          [([0, 1, 2, 3, 4, 5], [0, 1, 2, 3, 4, 5]),
            ([6, 7, 8, 9, 10, 11], [6, 7, 8, 9, 10, 11]),
            ([12, 13], [12, 13])]⟩ ∧
    ¬ (6 ≤ 4) := by decide

theorem c5_slice_chunking_amended_witness :
    1 ≤ 2 ∧
    storeGet [([1, 2, 3, 4, 5], [1, 2, 3, 4, 5])] [1, 2, 3, 4, 5] =
      some [1, 2, 3, 4, 5] ∧
    2 * 2 < ([1, 2, 3, 4, 5] : Bytes).length ∧
    (∃ store' slices,
      processOneOrigin id (maxSliceSize 2) [([1, 2, 3, 4, 5], [1, 2, 3, 4, 5])]
          [1, 2, 3, 4, 5] = some (store', slices) ∧
      (∀ c ∈ (sliceChunks (maxSliceSize 2) [1, 2, 3, 4, 5]).dropLast,
          c.length = maxSliceSize 2) ∧
      (∃ last, (sliceChunks (maxSliceSize 2) [1, 2, 3, 4, 5]).getLast? = some last ∧
          0 < last.length ∧ last.length ≤ maxSliceSize 2) ∧
      (sliceChunks (maxSliceSize 2) [1, 2, 3, 4, 5]).flatten = [1, 2, 3, 4, 5] ∧
      (∀ c ∈ sliceChunks (maxSliceSize 2) [1, 2, 3, 4, 5],
          storeGet store' (id c) = some c ∧ (id c, c.length) ∈ slices) ∧
      (∀ p ∈ slices, ∃ c ∈ sliceChunks (maxSliceSize 2) [1, 2, 3, 4, 5],
          p = (id c, c.length)) ∧
      storeGet store' [1, 2, 3, 4, 5] = none) :=
  ⟨by decide, by decide, by decide,
    c5_slice_chunking_amended id (fun a b hab => hab) 2 (by decide)
      [([1, 2, 3, 4, 5], [1, 2, 3, 4, 5])] (by unfold StoreWF; decide)
      [1, 2, 3, 4, 5] [1, 2, 3, 4, 5] (by decide) (by decide)⟩

/-! ## Claim C1 -/

/-- C1 fails on the code: the slice worker records its chunks in a
digest-keyed dict, so an origin whose chunking repeats a chunk (here 6 bytes
`0x05` at `slice_size = 2`: two identical 3-byte chunks) gets
`SliceFilter(slices=[2])` with the repeated chunk listed once; concatenating
the slice blobs yields 3 bytes, not the row's `size = 6`, and its digest is
not the row's digest — the reconstruction invariant is violated. -/
theorem c1_slice_reconstruction_code_bug :
    sliceChunks (maxSliceSize 2) [5, 5, 5, 5, 5, 5] = [[5, 5, 5], [5, 5, 5]] ∧
    sliceRun id [] 2 16
        ⟨[⟨1, [5, 5, 5, 5, 5, 5], 6, none⟩],
          [([5, 5, 5, 5, 5, 5], [5, 5, 5, 5, 5, 5])]⟩ =
      some ⟨[⟨1, [5, 5, 5, 5, 5, 5], 6, some (.sliceF [2])⟩,
            ⟨2, [5, 5, 5], 3, none⟩],
          [([5, 5, 5], [5, 5, 5])]⟩ ∧
    reconstructSlice
        [⟨1, [5, 5, 5, 5, 5, 5], 6, some (.sliceF [2])⟩, ⟨2, [5, 5, 5], 3, none⟩]
        [([5, 5, 5], [5, 5, 5])] [2] = some [5, 5, 5] ∧
    ¬ (([5, 5, 5] : Bytes).length = 6) ∧ ([5, 5, 5] : Bytes) ≠ [5, 5, 5, 5, 5, 5] := by
  decide

/-! ## Ingest worker shape lemmas -/

/-- Whatever the inode policy decides, `_process_inode` enqueues exactly one
inode row and touches no other state but the counter. -/
theorem processInode_queue (st : IngestState) (isSym isDir : Bool) (stat : SrcStat) :
    ∃ row iid, (processInode st isSym isDir stat).1 = iid ∧
      (processInode st isSym isDir stat).2.queue = st.queue ++ [.inodeItem row] ∧
      (processInode st isSym isDir stat).2.store = st.store ∧
      (processInode st isSym isDir stat).2.reg = st.reg ∧
      row.inode_id = iid := by
  unfold processInode
  by_cases hc : (stat.nlink == 1 || (!isSym && isDir)) = true
  · rw [if_pos hc]
    exact ⟨_, _, rfl, rfl, rfl, rfl, rfl⟩
  · rw [if_neg hc]
    exact ⟨_, _, rfl, rfl, rfl, rfl, rfl⟩

/-- The equationally unfolded inline branch of `_regular_file_worker`. -/
theorem regularFileWorker_inline (h : Bytes → Digest) (st : IngestState)
    (path : Nat) (stat : SrcStat) (contents : Bytes)
    (hreg : assocGet st.reg (h contents) = none) (h0 : contents.length ≠ 0)
    (hle : contents.length ≤ cfg.INLINE_THRESHOULD) :
    regularFileWorker h cfg.INLINE_THRESHOULD st path stat contents =
      (let st1 : IngestState :=
        { st with
          reg := st.reg ++ [(h contents, st.reg.length)]
          queue := st.queue ++ [.ftResourceItem st.reg.length (h contents)
            contents.length (some contents)] }
       let inode := processInode st1 false false stat
       { inode.2 with
          queue := inode.2.queue ++ [.regularItem path inode.1 st.reg.length] }) := by
  have hb : (contents.length == 0) = false := by simpa using h0
  have hrg : registerEntry st.reg (h contents) =
      ((true, st.reg.length), st.reg ++ [(h contents, st.reg.length)]) := by
    unfold registerEntry
    rw [hreg]
  unfold regularFileWorker
  simp only [hrg, hb, Bool.false_eq_true, if_false, hle, if_true]

/-- The equationally unfolded above-threshold branch of
`_regular_file_worker`. -/
theorem regularFileWorker_blob (h : Bytes → Digest) (st : IngestState)
    (path : Nat) (stat : SrcStat) (contents : Bytes)
    (hreg : assocGet st.reg (h contents) = none)
    (hgt : ¬ contents.length ≤ cfg.INLINE_THRESHOULD) :
    regularFileWorker h cfg.INLINE_THRESHOULD st path stat contents =
      (let st1 : IngestState :=
        { st with
          reg := st.reg ++ [(h contents, st.reg.length)]
          queue := st.queue ++
            [.ftResourceItem st.reg.length (h contents) contents.length none,
             .rstItem (h contents) contents.length]
          store :=
            if (storeGet st.store (h contents)).isSome then st.store
            else storeWrite st.store (h contents) contents }
       let inode := processInode st1 false false stat
       { inode.2 with
          queue := inode.2.queue ++ [.regularItem path inode.1 st.reg.length] }) := by
  have h0 : contents.length ≠ 0 := by
    intro hz
    rw [hz] at hgt
    exact hgt (by unfold cfg.INLINE_THRESHOULD; omega)
  have hb : (contents.length == 0) = false := by simpa using h0
  have hrg : registerEntry st.reg (h contents) =
      ((true, st.reg.length), st.reg ++ [(h contents, st.reg.length)]) := by
    unfold registerEntry
    rw [hreg]
  unfold regularFileWorker
  simp only [hrg, hb, Bool.false_eq_true, if_false, hgt, if_true]

/-- The tail of `_regular_file_worker`: allocate the inode, then enqueue the
`ft_regular_files` row. -/
theorem workerFinish_queue (st1 : IngestState) (stat : SrcStat) (path rid : Nat) :
    ∃ row iid,
      ({ (processInode st1 false false stat).2 with
          queue := (processInode st1 false false stat).2.queue ++
            [.regularItem path (processInode st1 false false stat).1 rid] } :
        IngestState).queue =
        st1.queue ++ [.inodeItem row, .regularItem path iid rid] ∧
      ({ (processInode st1 false false stat).2 with
          queue := (processInode st1 false false stat).2.queue ++
            [.regularItem path (processInode st1 false false stat).1 rid] } :
        IngestState).store = st1.store := by
  rcases processInode_queue st1 false false stat with ⟨row, iid, h1, h2, h3, _, _⟩
  refine ⟨row, iid, ?_, h3⟩
  show (processInode st1 false false stat).2.queue ++
      [.regularItem path (processInode st1 false false stat).1 rid] = _
  rw [h2, h1, List.append_assoc]
  rfl

/-! ## Claim C7 -/

/-- C7: ingesting a regular file whose digest is not yet registered: at or
below `INLINE_THRESHOLD` (64 bytes) the bytes are inlined into the emitted
`FileTableResource` row, no blob is written and no global resource-table row
is enqueued; at 65 bytes or more the `FileTableResource` row has null
contents, a global resource-table row is enqueued, and the blob is in the
store afterwards.  So a 64-byte file is inlined and a 65-byte file is not. -/
theorem c7_inline_threshold_boundary (h : Bytes → Digest)
    (hinj : Function.Injective h) (st : IngestState) (hwf : StoreWF h st.store)
    (path : Nat) (stat : SrcStat) (contents : Bytes)
    (hreg : assocGet st.reg (h contents) = none) (hlen : 1 ≤ contents.length) :
    (contents.length ≤ cfg.INLINE_THRESHOULD →
      (regularFileWorker h cfg.INLINE_THRESHOULD st path stat contents).store =
        st.store ∧
      ∃ row iid,
        (regularFileWorker h cfg.INLINE_THRESHOULD st path stat contents).queue =
          st.queue ++
            [.ftResourceItem st.reg.length (h contents) contents.length
              (some contents),
             .inodeItem row, .regularItem path iid st.reg.length]) ∧
    (cfg.INLINE_THRESHOULD + 1 ≤ contents.length →
      storeGet (regularFileWorker h cfg.INLINE_THRESHOULD st path stat contents).store
          (h contents) = some contents ∧
      ∃ row iid,
        (regularFileWorker h cfg.INLINE_THRESHOULD st path stat contents).queue =
          st.queue ++
            [.ftResourceItem st.reg.length (h contents) contents.length none,
             .rstItem (h contents) contents.length,
             .inodeItem row, .regularItem path iid st.reg.length]) := by
  constructor
  · intro hle
    rw [regularFileWorker_inline h st path stat contents hreg (by omega) hle]
    rcases workerFinish_queue
        { st with
          reg := st.reg ++ [(h contents, st.reg.length)]
          queue := st.queue ++ [.ftResourceItem st.reg.length (h contents)
            contents.length (some contents)] }
        stat path st.reg.length with ⟨row, iid, hq, hs⟩
    refine ⟨hs, row, iid, ?_⟩
    rw [hq]
    show (st.queue ++ [QueueItem.ftResourceItem st.reg.length (h contents)
        contents.length (some contents)]) ++ _ = _
    rw [List.append_assoc]
    rfl
  · intro hgt
    rw [regularFileWorker_blob h st path stat contents hreg (by omega)]
    rcases workerFinish_queue
        { st with
          reg := st.reg ++ [(h contents, st.reg.length)]
          queue := st.queue ++
            [.ftResourceItem st.reg.length (h contents) contents.length none,
             .rstItem (h contents) contents.length]
          store :=
            if (storeGet st.store (h contents)).isSome then st.store
            else storeWrite st.store (h contents) contents }
        stat path st.reg.length with ⟨row, iid, hq, hs⟩
    constructor
    · rw [hs]
      show storeGet
          (if (storeGet st.store (h contents)).isSome then st.store
            else storeWrite st.store (h contents) contents) (h contents) =
        some contents
      by_cases hsome : (storeGet st.store (h contents)).isSome = true
      · rw [if_pos hsome]
        rcases Option.isSome_iff_exists.1 hsome with ⟨c0, hc0⟩
        have : h contents = h c0 := storeGet_wf hwf hc0
        have hc : c0 = contents := (hinj this).symm
        rw [hc0, hc]
      · rw [if_neg hsome]
        exact storeGet_write_self st.store (h contents) contents
    · refine ⟨row, iid, ?_⟩
      rw [hq]
      show (st.queue ++ [QueueItem.ftResourceItem st.reg.length (h contents)
          contents.length none,
          QueueItem.rstItem (h contents) contents.length]) ++ _ = _
      rw [List.append_assoc]
      rfl

theorem c7_inline_threshold_boundary_witness :
    (List.replicate 64 1 : Bytes).length ≤ cfg.INLINE_THRESHOULD ∧
    cfg.INLINE_THRESHOULD + 1 ≤ (List.replicate 65 1 : Bytes).length ∧
    (regularFileWorker id cfg.INLINE_THRESHOULD (initIngestState id) 0
        ⟨1, 7, 0, 0, 0, []⟩ (List.replicate 64 1)).store = (initIngestState id).store ∧
    storeGet (regularFileWorker id cfg.INLINE_THRESHOULD (initIngestState id) 0
        ⟨1, 7, 0, 0, 0, []⟩ (List.replicate 65 1)).store (id (List.replicate 65 1)) =
      some (List.replicate 65 1) :=
  ⟨by decide, by decide,
    ((c7_inline_threshold_boundary id (fun a b hab => hab) (initIngestState id)
        (by unfold StoreWF; decide) 0 ⟨1, 7, 0, 0, 0, []⟩ (List.replicate 64 1)
        (by decide) (by decide)).1 (by decide)).1,
    ((c7_inline_threshold_boundary id (fun a b hab => hab) (initIngestState id)
        (by unfold StoreWF; decide) 0 ⟨1, 7, 0, 0, 0, []⟩ (List.replicate 65 1)
        (by decide) (by decide)).2 (by decide)).1⟩

/-- Queue items that route to the two resource tables (not to
`ft_inode`/`ft_regular_files`). -/
def isResourceEmission : QueueItem → Bool
  | .ftResourceItem _ _ _ _ => true
  | .rstItem _ _ => true
  | _ => false

theorem dbInsertItem_resource {db : FileTableDB} {it : QueueItem}
    (hit : isResourceEmission it = true) :
    (dbInsertItem db it).inodes = db.inodes ∧
      (dbInsertItem db it).regulars = db.regulars := by
  cases it with
  | ftResourceItem rid d size contents =>
      simp only [dbInsertItem]
      split <;> simp
  | rstItem d size =>
      simp only [dbInsertItem]
      split <;> simp
  | inodeItem row => simp [isResourceEmission] at hit
  | dirItem p i => simp [isResourceEmission] at hit
  | nonRegularItem p i m => simp [isResourceEmission] at hit
  | regularItem p i r => simp [isResourceEmission] at hit

theorem applyQueue_resource {q : List QueueItem}
    (hq : ∀ it ∈ q, isResourceEmission it = true) :
    ∀ db : FileTableDB, (applyQueue db q).inodes = db.inodes ∧
      (applyQueue db q).regulars = db.regulars := by
  induction q with
  | nil => intro db; exact ⟨rfl, rfl⟩
  | cons it t ih =>
      intro db
      have h1 := @dbInsertItem_resource db it (hq it (List.mem_cons_self it t))
      have h2 := ih (fun it' hit' => hq it' (List.mem_cons_of_mem it hit')) (dbInsertItem db it)
      exact ⟨h2.1.trans h1.1, h2.2.trans h1.2⟩

/-- `_regular_file_worker` on a hardlinked entry (`st_nlink ≠ 1`): whatever
the resource fast-paths emit, the tail of the queue block is one inode row
with `inode_id = -st_ino` followed by one regular-file row referencing the
same virtual inode. -/
theorem regularFileWorker_hardlink (h : Bytes → Digest) (st : IngestState)
    (path : Nat) (stat : SrcStat) (contents : Bytes) (hn : stat.nlink ≠ 1) :
    ∃ (pre : List QueueItem) (rid : Nat),
      (∀ it ∈ pre, isResourceEmission it = true) ∧
      (regularFileWorker h cfg.INLINE_THRESHOULD st path stat contents).queue =
        (st.queue ++ pre) ++
          [.inodeItem ⟨-(stat.ino : Int), stat.uid, stat.gid, stat.mode,
            if stat.xattrs.isEmpty then none else some stat.xattrs⟩,
           .regularItem path (-(stat.ino : Int)) rid] := by
  have hnb : (stat.nlink == 1 || (!false && false)) = false := by
    simp only [Bool.not_false, Bool.and_false, Bool.or_false]
    exact beq_eq_false_iff_ne.2 hn
  have hpi : ∀ st2 : IngestState, processInode st2 false false stat =
      (-(stat.ino : Int),
        { st2 with
          queue := st2.queue ++ [.inodeItem ⟨-(stat.ino : Int), stat.uid,
            stat.gid, stat.mode,
            if stat.xattrs.isEmpty then none else some stat.xattrs⟩] }) := by
    intro st2
    unfold processInode
    rw [if_neg (by rw [hnb]; exact Bool.false_ne_true)]
  unfold regularFileWorker
  simp only [hpi]
  by_cases h0 : (contents.length == 0) = true
  · simp only [h0, if_true]
    exact ⟨[], 0, fun it hit => absurd hit (List.not_mem_nil it),
      by simp [List.append_assoc]⟩
  · simp only [h0, Bool.false_eq_true, if_false]
    by_cases hle : contents.length ≤ cfg.INLINE_THRESHOULD
    · rw [if_pos hle]
      rcases hre : registerEntry st.reg (h contents) with ⟨⟨first, rid⟩, reg'⟩
      cases first with
      | true =>
          simp only [hre, if_true]
          refine ⟨[.ftResourceItem rid (h contents) contents.length (some contents)],
            rid, ?_, by simp [List.append_assoc]⟩
          intro it hit
          rcases List.mem_singleton.1 hit with rfl
          rfl
      | false =>
          simp only [hre, Bool.false_eq_true, if_false]
          exact ⟨[], rid, fun it hit => absurd hit (List.not_mem_nil it),
            by simp [List.append_assoc]⟩
    · rw [if_neg hle]
      rcases hre : registerEntry st.reg (h contents) with ⟨⟨first, rid⟩, reg'⟩
      cases first with
      | true =>
          simp only [hre, if_true]
          refine ⟨[.ftResourceItem rid (h contents) contents.length none,
              .rstItem (h contents) contents.length], rid, ?_,
            by simp [List.append_assoc]⟩
          intro it hit
          rcases List.mem_cons.1 hit with rfl | hit'
          · rfl
          · rcases List.mem_singleton.1 hit' with rfl
            rfl
      | false =>
          simp only [hre, Bool.false_eq_true, if_false]
          exact ⟨[], rid, fun it hit => absurd hit (List.not_mem_nil it),
            by simp [List.append_assoc]⟩

theorem ingestRegulars_queue_prefix (h : Bytes → Digest) :
    ∀ (entries : List (Nat × SrcStat × Bytes)) (st : IngestState),
      (∀ e ∈ entries, e.2.1.nlink ≠ 1) →
      ∃ q2, (ingestRegulars h cfg.INLINE_THRESHOULD entries st).queue =
        st.queue ++ q2 := by
  intro entries
  induction entries with
  | nil => intro st _; exact ⟨[], by simp [ingestRegulars]⟩
  | cons e rest ih =>
      intro st hhl
      rcases regularFileWorker_hardlink h st e.1 e.2.1 e.2.2
        (hhl e (List.mem_cons_self e rest)) with ⟨pre, rid, _, hq⟩
      rcases ih (regularFileWorker h cfg.INLINE_THRESHOULD st e.1 e.2.1 e.2.2)
        (fun e' he' => hhl e' (List.mem_cons_of_mem e he')) with ⟨q2, hq2⟩
      have hfold : ingestRegulars h cfg.INLINE_THRESHOULD (e :: rest) st =
          ingestRegulars h cfg.INLINE_THRESHOULD rest
            (regularFileWorker h cfg.INLINE_THRESHOULD st e.1 e.2.1 e.2.2) := rfl
      refine ⟨(pre ++
        [.inodeItem ⟨-(e.2.1.ino : Int), e.2.1.uid, e.2.1.gid, e.2.1.mode,
          if e.2.1.xattrs.isEmpty then none else some e.2.1.xattrs⟩,
         .regularItem e.1 (-(e.2.1.ino : Int)) rid]) ++ q2, ?_⟩
      rw [hfold, hq2, hq]
      simp [List.append_assoc]

theorem dbInsert_inode_facts {db : FileTableDB} {row : FileTableInode} {I : Nat}
    (hall : ∀ r ∈ db.inodes, r.inode_id = -(I : Int)) (hlen : db.inodes.length ≤ 1)
    (hrow : row.inode_id = -(I : Int)) :
    (∀ r ∈ (dbInsertItem db (.inodeItem row)).inodes, r.inode_id = -(I : Int)) ∧
    (dbInsertItem db (.inodeItem row)).inodes.length = min 1 (db.inodes.length + 1) ∧
    (dbInsertItem db (.inodeItem row)).regulars = db.regulars := by
  simp only [dbInsertItem]
  by_cases hany : (db.inodes.any fun r => r.inode_id == row.inode_id) = true
  · rw [if_pos hany]
    refine ⟨hall, ?_, rfl⟩
    rcases List.any_eq_true.1 hany with ⟨r0, hr0, _⟩
    have hne : db.inodes ≠ [] := by
      intro hz
      rw [hz] at hr0
      cases hr0
    have hpos : 1 ≤ db.inodes.length := List.length_pos.2 hne
    omega
  · rw [if_neg hany]
    have hz : db.inodes = [] := by
      rcases hdb : db.inodes with _ | ⟨r0, t⟩
      · rfl
      · exfalso
        apply hany
        apply List.any_eq_true.2
        refine ⟨r0, by rw [hdb]; exact List.mem_cons_self r0 t, ?_⟩
        have : r0.inode_id = -(I : Int) := hall r0 (by rw [hdb]; exact List.mem_cons_self r0 t)
        simp [this, hrow]
    refine ⟨?_, ?_, rfl⟩
    · intro r hr
      simp only [List.mem_append, List.mem_singleton] at hr
      rcases hr with hr | rfl
      · exact hall r hr
      · exact hrow
    · rw [hz]
      simp only [List.nil_append, List.length_singleton, List.length_nil]
      omega

theorem dbInsert_regular_facts {db : FileTableDB} {path : Nat} {iid : Int} {rid : Nat}
    (hpath : path ∉ db.regulars.map (·.1)) :
    (dbInsertItem db (.regularItem path iid rid)).regulars =
      db.regulars ++ [(path, iid, rid)] ∧
    (dbInsertItem db (.regularItem path iid rid)).inodes = db.inodes := by
  simp only [dbInsertItem]
  have hany : (db.regulars.any fun r => r.1 == path) = false := by
    rw [Bool.eq_false_iff]
    intro hc
    rcases List.any_eq_true.1 hc with ⟨r0, hr0, hr0p⟩
    have : r0.1 = path := by simpa using hr0p
    exact hpath (this ▸ List.mem_map_of_mem (·.1) hr0)
  rw [if_neg (by rw [hany]; exact Bool.false_ne_true)]
  exact ⟨rfl, rfl⟩

theorem c8_hardlink_aux (h : Bytes → Digest) (I : Nat) :
    ∀ (entries : List (Nat × SrcStat × Bytes)) (st : IngestState) (db : FileTableDB),
      (∀ e ∈ entries, e.2.1.ino = I ∧ e.2.1.nlink ≠ 1) →
      (entries.map (·.1)).Nodup →
      (∀ e ∈ entries, e.1 ∉ db.regulars.map (·.1)) →
      (∀ r ∈ db.inodes, r.inode_id = -(I : Int)) →
      db.inodes.length ≤ 1 →
      (applyQueue db
          (((ingestRegulars h cfg.INLINE_THRESHOULD entries st).queue).drop
            st.queue.length)).regulars.map (·.1) =
        db.regulars.map (·.1) ++ entries.map (·.1) ∧
      (∀ r ∈ (applyQueue db
          (((ingestRegulars h cfg.INLINE_THRESHOULD entries st).queue).drop
            st.queue.length)).inodes, r.inode_id = -(I : Int)) ∧
      (applyQueue db
          (((ingestRegulars h cfg.INLINE_THRESHOULD entries st).queue).drop
            st.queue.length)).inodes.length =
        min 1 (db.inodes.length + entries.length) := by
  intro entries
  induction entries with
  | nil =>
      intro st db _ _ _ hall hlen
      have : (ingestRegulars h cfg.INLINE_THRESHOULD [] st).queue = st.queue := rfl
      rw [this, List.drop_length]
      refine ⟨by simp [applyQueue], ?_, ?_⟩
      · simpa [applyQueue] using hall
      · simp only [applyQueue, List.foldl_nil, List.length_nil]
        omega
  | cons e rest ih =>
      intro st db hprops hnodup hpaths hall hlen
      rcases regularFileWorker_hardlink h st e.1 e.2.1 e.2.2
        (hprops e (List.mem_cons_self e rest)).2 with ⟨pre, rid, hpre, hq⟩
      have hIe : e.2.1.ino = I := (hprops e (List.mem_cons_self e rest)).1
      set st1 := regularFileWorker h cfg.INLINE_THRESHOULD st e.1 e.2.1 e.2.2 with hst1
      have hfold : ingestRegulars h cfg.INLINE_THRESHOULD (e :: rest) st =
          ingestRegulars h cfg.INLINE_THRESHOULD rest st1 := rfl
      rcases ingestRegulars_queue_prefix h rest st1
        (fun e' he' => (hprops e' (List.mem_cons_of_mem e he')).2) with ⟨q2, hq2⟩
      set row : FileTableInode :=
        ⟨-(e.2.1.ino : Int), e.2.1.uid, e.2.1.gid, e.2.1.mode,
          if e.2.1.xattrs.isEmpty then none else some e.2.1.xattrs⟩ with hrow
      have hdrop : ((ingestRegulars h cfg.INLINE_THRESHOULD (e :: rest) st).queue).drop
          st.queue.length =
          (pre ++ [.inodeItem row, .regularItem e.1 (-(e.2.1.ino : Int)) rid]) ++ q2 := by
        rw [hfold, hq2, hq]
        rw [List.append_assoc, List.append_assoc]
        rw [List.drop_left]
        rw [← List.append_assoc]
      have hq2drop : q2 = ((ingestRegulars h cfg.INLINE_THRESHOULD rest st1).queue).drop
          st1.queue.length := by
        rw [hq2, List.drop_left]
      -- the database after this entry's block
      have happ : applyQueue db
          ((pre ++ [.inodeItem row, .regularItem e.1 (-(e.2.1.ino : Int)) rid]) ++ q2) =
          applyQueue (dbInsertItem (dbInsertItem (applyQueue db pre) (.inodeItem row))
            (.regularItem e.1 (-(e.2.1.ino : Int)) rid)) q2 := by
        unfold applyQueue
        rw [List.foldl_append, List.foldl_append]
        rfl
      have hres := applyQueue_resource hpre db
      have hino := @dbInsert_inode_facts (applyQueue db pre) row I
        (by rw [hres.1]; exact hall) (by rw [hres.1]; exact hlen)
        (by rw [hrow]; simp [hIe])
      have hregf := @dbInsert_regular_facts
        (dbInsertItem (applyQueue db pre) (.inodeItem row)) e.1
        (-(e.2.1.ino : Int)) rid
        (by
          rw [hino.2.2, hres.2]
          exact hpaths e (List.mem_cons_self e rest))
      set db1 := dbInsertItem (dbInsertItem (applyQueue db pre) (.inodeItem row))
        (.regularItem e.1 (-(e.2.1.ino : Int)) rid) with hdb1
      have hdb1reg : db1.regulars.map (·.1) = db.regulars.map (·.1) ++ [e.1] := by
        rw [hdb1, hregf.1, hino.2.2, hres.2]
        simp
      have hdb1ino : ∀ r ∈ db1.inodes, r.inode_id = -(I : Int) := by
        rw [hdb1, hregf.2]
        exact hino.1
      have hdb1len : db1.inodes.length = min 1 (db.inodes.length + 1) := by
        rw [hdb1, hregf.2, hino.2.1, hres.1]
      have hih := ih st1 db1
        (fun e' he' => hprops e' (List.mem_cons_of_mem e he'))
        (by
          simp only [List.map_cons, List.nodup_cons] at hnodup
          exact hnodup.2)
        (by
          intro e' he'
          rw [hdb1reg]
          simp only [List.mem_append, List.mem_singleton]
          rintro (hin | heq)
          · exact hpaths e' (List.mem_cons_of_mem e he') hin
          · simp only [List.map_cons, List.nodup_cons] at hnodup
            exact hnodup.1 (heq ▸ List.mem_map_of_mem (·.1) he'))
        hdb1ino (by omega)
      rw [hdrop, happ, ← hdb1, ← hq2drop] at *
      rw [hq2drop] at hih
      refine ⟨?_, hih.2.1, ?_⟩
      · rw [← hq2drop] at hih
        rw [hih.1, hdb1reg]
        simp [List.append_assoc]
      · rw [← hq2drop] at hih
        rw [hih.2.2, hdb1len]
        simp only [List.length_cons]
        omega

/-! ## Claim C8 -/

/-- C8: a source entry with `st_nlink == 1`, or a (non-symlink) directory,
draws a fresh positive inode id from the per-image counter (which starts at
1); every other entry uses `inode_id = -st_ino`.  Since the database writer
ignores duplicate inode ids, a source of N regular-file paths sharing
on-disk inode I yields N `ft_regular_files` rows and exactly one inode row
with `inode_id = -I`. -/
theorem c8_inode_policy_hardlink_collapse (h : Bytes → Digest) :
    (∀ (st : IngestState) (isSym isDir : Bool) (stat : SrcStat),
      1 ≤ st.counter →
      ((stat.nlink = 1 ∨ (isSym = false ∧ isDir = true)) →
        (processInode st isSym isDir stat).1 = (st.counter : Int) ∧
        0 < (processInode st isSym isDir stat).1 ∧
        (processInode st isSym isDir stat).2.counter = st.counter + 1) ∧
      ((stat.nlink ≠ 1 ∧ (isSym = true ∨ isDir = false)) →
        (processInode st isSym isDir stat).1 = -(stat.ino : Int) ∧
        (processInode st isSym isDir stat).2.counter = st.counter)) ∧
    (∀ (entries : List (Nat × SrcStat × Bytes)) (I : Nat),
      (∀ e ∈ entries, e.2.1.ino = I ∧ e.2.1.nlink ≠ 1) →
      (entries.map (·.1)).Nodup → 1 ≤ entries.length →
      (applyQueue emptyFileTableDB
          (ingestRegulars h cfg.INLINE_THRESHOULD entries
            (initIngestState h)).queue).regulars.length = entries.length ∧
      ((applyQueue emptyFileTableDB
          (ingestRegulars h cfg.INLINE_THRESHOULD entries
            (initIngestState h)).queue).inodes.filter
          (fun r => r.inode_id == -(I : Int))).length = 1) := by
  constructor
  · intro st isSym isDir stat hcnt
    constructor
    · intro hdisj
      have hcond : (stat.nlink == 1 || (!isSym && isDir)) = true := by
        rcases hdisj with hnl | ⟨hs, hd⟩
        · simp [hnl]
        · simp [hs, hd]
      unfold processInode
      rw [if_pos hcond]
      refine ⟨rfl, ?_, rfl⟩
      show (0 : Int) < (st.counter : Int)
      exact_mod_cast hcnt
    · intro ⟨hnl, hor⟩
      have hcond : (stat.nlink == 1 || (!isSym && isDir)) = false := by
        have h1 : (stat.nlink == 1) = false := beq_eq_false_iff_ne.2 hnl
        rcases hor with hs | hd
        · simp [h1, hs]
        · simp [h1, hd]
      unfold processInode
      rw [if_neg (by rw [hcond]; exact Bool.false_ne_true)]
      exact ⟨rfl, rfl⟩
  · intro entries I hprops hnodup hn
    have hinit : (initIngestState h).queue = [] := rfl
    have haux := c8_hardlink_aux h I entries (initIngestState h) emptyFileTableDB
      hprops hnodup (fun e _ hmem => by simp [emptyFileTableDB] at hmem)
      (fun r hr => by simp [emptyFileTableDB] at hr)
      (by simp [emptyFileTableDB])
    rw [hinit] at haux
    simp only [List.length_nil, List.drop_zero] at haux
    constructor
    · have := congrArg List.length haux.1
      simpa [emptyFileTableDB] using this
    · have hflt : ((applyQueue emptyFileTableDB
          (ingestRegulars h cfg.INLINE_THRESHOULD entries
            (initIngestState h)).queue).inodes.filter
          (fun r => r.inode_id == -(I : Int))) =
          (applyQueue emptyFileTableDB
            (ingestRegulars h cfg.INLINE_THRESHOULD entries
              (initIngestState h)).queue).inodes := by
        apply List.filter_eq_self.2
        intro r hr
        have := haux.2.1 r hr
        simp [this]
      rw [hflt, haux.2.2]
      simp only [emptyFileTableDB, List.length_nil]
      omega

theorem c8_inode_policy_hardlink_collapse_witness :
    1 ≤ (initIngestState id).counter ∧
    (∀ e ∈ ([(0, ⟨2, 9, 0, 0, 0, []⟩, [1, 2, 3]),
        (1, ⟨2, 9, 0, 0, 0, []⟩, [1, 2, 3])] : List (Nat × SrcStat × Bytes)),
      e.2.1.ino = 9 ∧ e.2.1.nlink ≠ 1) ∧
    (processInode (initIngestState id) false false ⟨2, 9, 0, 0, 0, []⟩).1 =
      -((9 : Nat) : Int) ∧
    (applyQueue emptyFileTableDB
        (ingestRegulars id cfg.INLINE_THRESHOULD
          [(0, ⟨2, 9, 0, 0, 0, []⟩, [1, 2, 3]), (1, ⟨2, 9, 0, 0, 0, []⟩, [1, 2, 3])]
          (initIngestState id)).queue).regulars.length = 2 ∧
    ((applyQueue emptyFileTableDB
        (ingestRegulars id cfg.INLINE_THRESHOULD
          [(0, ⟨2, 9, 0, 0, 0, []⟩, [1, 2, 3]), (1, ⟨2, 9, 0, 0, 0, []⟩, [1, 2, 3])]
          (initIngestState id)).queue).inodes.filter
        (fun r => r.inode_id == -((9 : Nat) : Int))).length = 1 :=
  ⟨by decide, by decide,
    (((c8_inode_policy_hardlink_collapse id).1 (initIngestState id) false false
        ⟨2, 9, 0, 0, 0, []⟩ (by decide)).2 ⟨by decide, Or.inr rfl⟩).1,
    ((c8_inode_policy_hardlink_collapse id).2
        [(0, ⟨2, 9, 0, 0, 0, []⟩, [1, 2, 3]), (1, ⟨2, 9, 0, 0, 0, []⟩, [1, 2, 3])] 9
        (by decide) (by decide) (by decide)).1,
    ((c8_inode_policy_hardlink_collapse id).2
        [(0, ⟨2, 9, 0, 0, 0, []⟩, [1, 2, 3]), (1, ⟨2, 9, 0, 0, 0, []⟩, [1, 2, 3])] 9
        (by decide) (by decide) (by decide)).2⟩

/-! ## Selection and batching lemmas -/

theorem mem_sqlBundleSelect {lower upper : Nat} {tbl : List RstRow}
    {e : EntryToBeBundled} (he : e ∈ sqlBundleSelect lower upper tbl) :
    ∃ r ∈ tbl, r.filter_applied = none ∧ lower < r.size ∧ r.size ≤ upper ∧
      r.resource_id = e.resource_id ∧ r.digest = e.digest ∧ r.size = e.size := by
  unfold sqlBundleSelect at he
  rcases List.mem_map.1 he with ⟨r, hr, heq⟩
  rcases List.mem_filter.1 hr with ⟨hrt, hpred⟩
  simp only [Bool.and_eq_true, decide_eq_true_eq, Option.isNone_iff_eq_none] at hpred
  subst heq
  exact ⟨r, hrt, hpred.2, hpred.1.1, hpred.1.2, rfl, rfl, rfl⟩

theorem mem_sqlCompressionSelect {lower : Nat} {tbl : List RstRow}
    {e : EntryToBeBundled} (he : e ∈ sqlCompressionSelect lower tbl) :
    ∃ r ∈ tbl, r.filter_applied = none ∧ lower < r.size ∧
      r.resource_id = e.resource_id ∧ r.digest = e.digest ∧ r.size = e.size := by
  unfold sqlCompressionSelect at he
  rcases List.mem_map.1 he with ⟨r, hr, heq⟩
  rcases List.mem_filter.1 hr with ⟨hrt, hpred⟩
  simp only [Bool.and_eq_true, decide_eq_true_eq, Option.isNone_iff_eq_none] at hpred
  subst heq
  exact ⟨r, hrt, hpred.2, hpred.1, rfl, rfl, rfl⟩

theorem mem_sqlSliceSelect {sliceSize : Nat} {tbl : List RstRow}
    {e : EntryToBeBundled} (he : e ∈ sqlSliceSelect sliceSize tbl) :
    ∃ r ∈ tbl, r.filter_applied = none ∧ 2 * sliceSize < r.size ∧
      r.resource_id = e.resource_id ∧ r.digest = e.digest ∧ r.size = e.size := by
  unfold sqlSliceSelect at he
  rcases List.mem_map.1 he with ⟨r, hr, heq⟩
  rcases List.mem_filter.1 hr with ⟨hrt, hpred⟩
  simp only [Bool.and_eq_true, decide_eq_true_eq, Option.isNone_iff_eq_none] at hpred
  subst heq
  exact ⟨r, hrt, hpred.2, hpred.1, rfl, rfl, rfl⟩

theorem mem_sqlSliceSelect_of_row {sliceSize : Nat} {tbl : List RstRow}
    {r : RstRow} (hr : r ∈ tbl) (hfa : r.filter_applied = none)
    (hsz : 2 * sliceSize < r.size) :
    (⟨r.resource_id, r.digest, r.size⟩ : EntryToBeBundled) ∈ sqlSliceSelect sliceSize tbl := by
  unfold sqlSliceSelect
  apply List.mem_map.2
  refine ⟨r, List.mem_filter.2 ⟨hr, ?_⟩, rfl⟩
  simp only [Bool.and_eq_true, decide_eq_true_eq, Option.isNone_iff_eq_none]
  exact ⟨hsz, hfa⟩

theorem batchEntriesWithFilter_mem (excluded : List Digest) (exp : Nat) :
    ∀ (input : List EntryToBeBundled) (curSize : Nat)
      (curBatch : List EntryToBeBundled) (b : Nat × List EntryToBeBundled),
      b ∈ batchEntriesWithFilter excluded exp input curSize curBatch →
      ∀ e ∈ b.2, e ∈ curBatch ∨ (e ∈ input ∧ excluded.contains e.digest = false) := by
  intro input
  induction input with
  | nil =>
      intro curSize curBatch b hb e he
      unfold batchEntriesWithFilter at hb
      split at hb
      · rcases List.mem_singleton.1 hb with rfl
        exact Or.inl he
      · cases hb
  | cons a rest ih =>
      intro curSize curBatch b hb e he
      unfold batchEntriesWithFilter at hb
      by_cases hex : excluded.contains a.digest = true
      · rw [if_pos hex] at hb
        rcases ih curSize curBatch b hb e he with h1 | ⟨h2, h3⟩
        · exact Or.inl h1
        · exact Or.inr ⟨List.mem_cons_of_mem a h2, h3⟩
      · rw [if_neg hex] at hb
        have hexf : excluded.contains a.digest = false := by
          cases hcc : excluded.contains a.digest
          · rfl
          · exact absurd hcc hex
        by_cases hover : curSize + a.size > exp
        · rw [if_pos hover] at hb
          rcases List.mem_cons.1 hb with rfl | hbt
          · rcases List.mem_append.1 he with h1 | h1
            · exact Or.inl h1
            · have he2 : e = a := List.mem_singleton.1 h1
              subst he2
              exact Or.inr ⟨List.mem_cons_self e rest, hexf⟩
          · rcases ih 0 [] b hbt e he with h1 | ⟨h2, h3⟩
            · cases h1
            · exact Or.inr ⟨List.mem_cons_of_mem a h2, h3⟩
        · rw [if_neg hover] at hb
          rcases ih (curSize + a.size) (curBatch ++ [a]) b hb e he with h1 | ⟨h2, h3⟩
          · rcases List.mem_append.1 h1 with h4 | h4
            · exact Or.inl h4
            · have he2 : e = a := List.mem_singleton.1 h4
              subst he2
              exact Or.inr ⟨List.mem_cons_self e rest, hexf⟩
          · exact Or.inr ⟨List.mem_cons_of_mem a h2, h3⟩

theorem batchEntries_mem {excluded : List Digest} {exp : Nat}
    {entries : List EntryToBeBundled} {b : Nat × List EntryToBeBundled}
    (hb : b ∈ batchEntries excluded exp entries) :
    ∀ e ∈ b.2, e ∈ entries ∧ excluded.contains e.digest = false := by
  intro e he
  rcases batchEntriesWithFilter_mem excluded exp entries 0 [] b hb e he with h1 | h2
  · cases h1
  · exact h2

/-- If one digest is in a protected list and another is not, they differ. -/
theorem ne_of_contains_baln {P : List Digest} {d e : Digest}
    (hd : P.contains d = true) (he : P.contains e = false) : e ≠ d := by
  intro hcontra
  rw [hcontra, hd] at he
  cases he

/-! ## Bundle run preservation lemmas -/

theorem bundleLoop_cons_none {store : Store} {e : EntryToBeBundled}
    {rest : List EntryToBeBundled} {offset : Nat} {acc : Bytes}
    {recs : List ((Nat × Digest) × (Nat × Nat))}
    (hc : storeGet store e.digest = none) :
    bundleLoop store (e :: rest) offset acc recs = none := by
  rw [show bundleLoop store (e :: rest) offset acc recs =
      match storeGet store e.digest with
      | none => none
      | some contents =>
          if contents.length ≠ e.size then none
          else bundleLoop (storeUnlink store e.digest) rest (offset + e.size)
            (acc ++ contents) (recs ++ [((e.resource_id, e.digest), (offset, e.size))])
    from rfl, hc]

theorem bundleLoop_cons_some {store : Store} {e : EntryToBeBundled}
    {rest : List EntryToBeBundled} {offset : Nat} {acc : Bytes}
    {recs : List ((Nat × Digest) × (Nat × Nat))} {c : Bytes}
    (hc : storeGet store e.digest = some c) :
    bundleLoop store (e :: rest) offset acc recs =
      if c.length ≠ e.size then none
      else bundleLoop (storeUnlink store e.digest) rest (offset + e.size)
        (acc ++ c) (recs ++ [((e.resource_id, e.digest), (offset, e.size))]) := by
  rw [show bundleLoop store (e :: rest) offset acc recs =
      match storeGet store e.digest with
      | none => none
      | some contents =>
          if contents.length ≠ e.size then none
          else bundleLoop (storeUnlink store e.digest) rest (offset + e.size)
            (acc ++ contents) (recs ++ [((e.resource_id, e.digest), (offset, e.size))])
    from rfl, hc]

theorem bundleLoop_success (entries : List EntryToBeBundled) :
    ∀ (store : Store) (offset : Nat) (acc : Bytes)
      (recs : List ((Nat × Digest) × (Nat × Nat))) (store' : Store) (off' : Nat)
      (bytes : Bytes) (recs' : List ((Nat × Digest) × (Nat × Nat))),
      bundleLoop store entries offset acc recs = some (store', off', bytes, recs') →
      store' = entries.foldl (fun s e => storeUnlink s e.digest) store ∧
      recs'.map (·.1) = recs.map (·.1) ++
        entries.map (fun e => (e.resource_id, e.digest)) := by
  induction entries with
  | nil =>
      intro store offset acc recs store' off' bytes recs' hloop
      unfold bundleLoop at hloop
      cases hloop
      exact ⟨rfl, by simp⟩
  | cons e rest ih =>
      intro store offset acc recs store' off' bytes recs' hloop
      rcases hget : storeGet store e.digest with _ | c
      · rw [bundleLoop_cons_none hget] at hloop
        cases hloop
      · rw [bundleLoop_cons_some hget] at hloop
        by_cases hlen : c.length ≠ e.size
        · rw [if_pos hlen] at hloop
          cases hloop
        · rw [if_neg hlen] at hloop
          rcases ih (storeUnlink store e.digest) (offset + e.size) (acc ++ c)
            (recs ++ [((e.resource_id, e.digest), (offset, e.size))])
            store' off' bytes recs' hloop with ⟨h1, h2⟩
          refine ⟨h1, ?_⟩
          rw [h2]
          simp [List.append_assoc]

theorem foldUnlink_get {entries : List EntryToBeBundled} {d : Digest}
    (hne : ∀ e ∈ entries, e.digest ≠ d) :
    ∀ store : Store,
      storeGet (entries.foldl (fun s e => storeUnlink s e.digest) store) d =
        storeGet store d := by
  induction entries with
  | nil => intro store; rfl
  | cons e rest ih =>
      intro store
      have h1 := ih (fun e' he' => hne e' (List.mem_cons_of_mem e he'))
        (storeUnlink store e.digest)
      rw [List.foldl_cons, h1,
        storeGet_unlink_ne store e.digest d
          (fun hc => hne e (List.mem_cons_self e rest) hc.symm)]

theorem foldUnlink_wf {h : Bytes → Digest} (entries : List EntryToBeBundled) :
    ∀ store : Store, StoreWF h store →
      StoreWF h (entries.foldl (fun s e => storeUnlink s e.digest) store) := by
  induction entries with
  | nil => intro store hwf; exact hwf
  | cons e rest ih => intro store hwf; exact ih _ (storeWF_unlink hwf e.digest)

theorem generateOneBundle_facts {h compress : Bytes → Bytes}
    (hinj : Function.Injective h) {store : Store}
    {b : Nat × List EntryToBeBundled} {store' : Store} {bres : BundleResult}
    {cres : BundleCompressedResult}
    (hgen : generateOneBundle h compress store b = some (store', bres, cres))
    (hwf : StoreWF h store) :
    bres.bundled_entries.map (·.1) = b.2.map (fun e => (e.resource_id, e.digest)) ∧
    StoreWF h store' ∧
    ∀ d c, (∀ e ∈ b.2, e.digest ≠ d) → storeGet store d = some c →
      storeGet store' d = some c := by
  unfold generateOneBundle at hgen
  rcases hloop : bundleLoop store b.2 0 [] [] with _ | ⟨st1, off, bytes, recs⟩
  · rw [hloop] at hgen
    cases hgen
  · rw [hloop] at hgen
    cases hgen
    rcases bundleLoop_success b.2 store 0 [] [] st1 off bytes recs hloop with ⟨hst, hrecs⟩
    subst hst
    have hwf1 : StoreWF h (b.2.foldl (fun s e => storeUnlink s e.digest) store) :=
      foldUnlink_wf b.2 store hwf
    refine ⟨by simpa using hrecs, storeWF_write hwf1 _, ?_⟩
    intro d c hne hget
    have h1 : storeGet (b.2.foldl (fun s e => storeUnlink s e.digest) store) d =
        some c := by
      rw [foldUnlink_get hne store]
      exact hget
    exact storeGet_write_of_wf hinj hwf1 h1 _

theorem bundleGenLoop_facts {h compress : Bytes → Bytes}
    (hinj : Function.Injective h) (maxSum : Nat)
    (batches : List (Nat × List EntryToBeBundled)) :
    ∀ (store : Store) (csum : Nat)
      (acc : List (BundleResult × BundleCompressedResult)) (store' : Store)
      (results : List (BundleResult × BundleCompressedResult)),
      bundleGenLoop h compress maxSum store batches csum acc = some (store', results) →
      StoreWF h store →
      (∀ br ∈ results, br ∈ acc ∨ ∃ b ∈ batches,
        br.1.bundled_entries.map (·.1) =
          b.2.map (fun e => (e.resource_id, e.digest))) ∧
      StoreWF h store' ∧
      ∀ d c, (∀ b ∈ batches, ∀ e ∈ b.2, e.digest ≠ d) →
        storeGet store d = some c → storeGet store' d = some c := by
  induction batches with
  | nil =>
      intro store csum acc store' results hloop hwf
      unfold bundleGenLoop at hloop
      cases hloop
      exact ⟨fun br hbr => Or.inl hbr, hwf, fun d c _ hget => hget⟩
  | cons b rest ih =>
      intro store csum acc store' results hloop hwf
      unfold bundleGenLoop at hloop
      by_cases hstop : csum > maxSum
      · rw [if_pos hstop] at hloop
        cases hloop
        exact ⟨fun br hbr => Or.inl hbr, hwf, fun d c _ hget => hget⟩
      · rw [if_neg hstop] at hloop
        rcases hgen : generateOneBundle h compress store b with _ | ⟨st1, bres, cres⟩
        · rw [hgen] at hloop
          cases hloop
        · rw [hgen] at hloop
          rcases generateOneBundle_facts hinj hgen hwf with ⟨hmap, hwf1, hpres⟩
          rcases ih st1 (csum + cres.compressed_size) (acc ++ [(bres, cres)])
            store' results hloop hwf1 with ⟨hres, hwf', hpres'⟩
          refine ⟨?_, hwf', ?_⟩
          · intro br hbr
            rcases hres br hbr with hin | ⟨b', hb', hmap'⟩
            · rcases List.mem_append.1 hin with h1 | h1
              · exact Or.inl h1
              · rcases List.mem_singleton.1 h1 with rfl
                exact Or.inr ⟨b, List.mem_cons_self b rest, hmap⟩
            · exact Or.inr ⟨b', List.mem_cons_of_mem b hb', hmap'⟩
          · intro d c hne hget
            exact hpres' d c (fun b' hb' => hne b' (List.mem_cons_of_mem b hb'))
              (hpres d c (hne b (List.mem_cons_self b rest)) hget)

theorem mem_foldUpdate {α : Type} (f : α → Nat) (g : α → FilterApplied)
    (recs : List α) :
    ∀ (tbl : List RstRow) (r : RstRow), r ∈ tbl → (∀ p ∈ recs, f p ≠ r.resource_id) →
      r ∈ recs.foldl (fun t p => updateFilterByRid t (f p) (g p)) tbl := by
  induction recs with
  | nil => intro tbl r hr _; exact hr
  | cons p rest ih =>
      intro tbl r hr hne
      exact ih _ r
        (mem_updateFilterByRid_of_ne hr (f p) (g p)
          (fun hc => hne p (List.mem_cons_self p rest) hc.symm))
        (fun q hq => hne q (List.mem_cons_of_mem p hq))

theorem mem_commitOneBundle {tbl : List RstRow} {r : RstRow} (hr : r ∈ tbl)
    (nextId : Nat) (bres : BundleResult) (cres : BundleCompressedResult)
    (hne : ∀ p ∈ bres.bundled_entries, p.1.1 ≠ r.resource_id) :
    r ∈ (commitOneBundle nextId bres cres tbl).2 := by
  unfold commitOneBundle
  rcases hf1 : tableFindByDigest tbl cres.compressed_digest with _ | row1 <;>
    simp only [hf1]
  · rcases hf2 : tableFindByDigest
        (tbl ++ [⟨nextId, cres.compressed_digest, cres.compressed_size, none⟩])
        bres.bundle_digest with _ | row2 <;> simp only [hf2]
    · exact mem_foldUpdate (fun p => p.1.1) _ bres.bundled_entries _ r
        (List.mem_append_left _ (List.mem_append_left _ hr)) hne
    · exact mem_foldUpdate (fun p => p.1.1) _ bres.bundled_entries _ r
        (List.mem_append_left _ hr) hne
  · rcases hf2 : tableFindByDigest tbl bres.bundle_digest with _ | row2 <;>
      simp only [hf2]
    · exact mem_foldUpdate (fun p => p.1.1) _ bres.bundled_entries _ r
        (List.mem_append_left _ hr) hne
    · exact mem_foldUpdate (fun p => p.1.1) _ bres.bundled_entries _ r hr hne

theorem mem_commitFold {r : RstRow}
    (results : List (BundleResult × BundleCompressedResult)) :
    ∀ p : Nat × List RstRow, r ∈ p.2 →
      (∀ br ∈ results, ∀ q ∈ br.1.bundled_entries, q.1.1 ≠ r.resource_id) →
      r ∈ (results.foldl (fun p br => commitOneBundle p.1 br.1 br.2 p.2) p).2 := by
  induction results with
  | nil => intro p hp _; exact hp
  | cons br rest ih =>
      intro p hp hne
      exact ih _ (mem_commitOneBundle hp p.1 br.1 br.2
          (hne br (List.mem_cons_self br rest)))
        (fun br' hbr' => hne br' (List.mem_cons_of_mem br hbr'))

theorem bundleFilterRun_preserves {h compress : Bytes → Bytes}
    (hinj : Function.Injective h) {protectedSet : List Digest}
    {lower upper exp maxSum : Nat} {s s' : PipeState}
    (hrun : bundleFilterRun h compress protectedSet lower upper exp maxSum s = some s')
    (hwf : StoreWF h s.store) (hnodup : (s.table.map (·.resource_id)).Nodup)
    {r : RstRow} (hr : r ∈ s.table)
    (hcond : r.filter_applied ≠ none ∨ protectedSet.contains r.digest = true) :
    r ∈ s'.table := by
  unfold bundleFilterRun at hrun
  rcases hloop : bundleGenLoop h compress maxSum s.store
      (batchEntries protectedSet exp (sqlBundleSelect lower upper s.table)) 0 []
    with _ | ⟨store', results⟩
  · simp only [hloop] at hrun
    cases hrun
  · simp only [hloop] at hrun
    cases hrun
    have hfacts := bundleGenLoop_facts hinj maxSum _ s.store 0 [] store' results
      hloop hwf
    apply mem_commitFold results _ hr
    intro br hbr q hq
    rcases hfacts.1 br hbr with hin | ⟨b, hb, hmap⟩
    · cases hin
    · have hq1 : q.1 ∈ b.2.map (fun e => (e.resource_id, e.digest)) := by
        rw [← hmap]
        exact List.mem_map_of_mem (·.1) hq
      rcases List.mem_map.1 hq1 with ⟨e, he, heq⟩
      rcases batchEntries_mem hb e he with ⟨hsel, hnc⟩
      rcases mem_sqlBundleSelect hsel with ⟨row0, hrow0, hfa0, _, _, hrid0, hdig0, _⟩
      intro hcontra
      have hq11 : q.1.1 = e.resource_id := by rw [← heq]
      have hre : row0.resource_id = r.resource_id := by
        rw [hrid0, ← hq11, hcontra]
      have hrow0r : row0 = r := eq_of_mem_of_rid_eq hnodup hrow0 hr hre
      rcases hcond with hfane | hprot
      · rw [hrow0r] at hfa0
        exact hfane hfa0
      · have : protectedSet.contains e.digest = true := by
          rw [← hdig0, hrow0r]
          exact hprot
        rw [this] at hnc
        cases hnc

theorem bundleFilterRun_store_protected {h compress : Bytes → Bytes}
    (hinj : Function.Injective h) {protectedSet : List Digest}
    {lower upper exp maxSum : Nat} {s s' : PipeState}
    (hrun : bundleFilterRun h compress protectedSet lower upper exp maxSum s = some s')
    (hwf : StoreWF h s.store) {d : Digest} {c : Bytes}
    (hd : protectedSet.contains d = true) (hget : storeGet s.store d = some c) :
    storeGet s'.store d = some c := by
  unfold bundleFilterRun at hrun
  rcases hloop : bundleGenLoop h compress maxSum s.store
      (batchEntries protectedSet exp (sqlBundleSelect lower upper s.table)) 0 []
    with _ | ⟨store', results⟩
  · simp only [hloop] at hrun
    cases hrun
  · simp only [hloop] at hrun
    cases hrun
    have hfacts := bundleGenLoop_facts hinj maxSum _ s.store 0 [] store' results
      hloop hwf
    apply hfacts.2.2 d c _ hget
    intro b hb e he
    exact ne_of_contains_baln hd (batchEntries_mem hb e he).2

/-! ## Compression run preservation lemmas -/

theorem compressOneEntry_red {h compress : Bytes → Bytes} {thrNum thrDen : Nat}
    {store : Store} {e : EntryToBeBundled} {c : Bytes}
    (hc : storeGet store e.digest = some c) :
    compressOneEntry h compress thrNum thrDen store e =
      if keepCompressed thrNum thrDen e.size (compress c).length then
        some (storeUnlink (storeWrite store (h (compress c)) (compress c)) e.digest,
          some (e.resource_id, h (compress c), (compress c).length))
      else some (store, none) := by
  rw [show compressOneEntry h compress thrNum thrDen store e =
      match storeGet store e.digest with
      | none => none
      | some contents =>
          if keepCompressed thrNum thrDen e.size (compress contents).length then
            some (storeUnlink (storeWrite store (h (compress contents)) (compress contents))
                e.digest,
              some (e.resource_id, h (compress contents), (compress contents).length))
          else some (store, none)
    from rfl, hc]

theorem compressOneEntry_red_none {h compress : Bytes → Bytes} {thrNum thrDen : Nat}
    {store : Store} {e : EntryToBeBundled}
    (hc : storeGet store e.digest = none) :
    compressOneEntry h compress thrNum thrDen store e = none := by
  rw [show compressOneEntry h compress thrNum thrDen store e =
      match storeGet store e.digest with
      | none => none
      | some contents =>
          if keepCompressed thrNum thrDen e.size (compress contents).length then
            some (storeUnlink (storeWrite store (h (compress contents)) (compress contents))
                e.digest,
              some (e.resource_id, h (compress contents), (compress contents).length))
          else some (store, none)
    from rfl, hc]

theorem compressionProcessLoop_facts {h compress : Bytes → Bytes}
    (hinj : Function.Injective h) (thrNum thrDen : Nat) (P : List Digest)
    (sel : List EntryToBeBundled) :
    ∀ (store : Store) (acc : List (Nat × Digest × Nat)) (store' : Store)
      (recs : List (Nat × Digest × Nat)),
      compressionProcessLoop h compress thrNum thrDen P store sel acc =
        some (store', recs) →
      StoreWF h store →
      (∀ rec ∈ recs, rec ∈ acc ∨
        ∃ e ∈ sel, P.contains e.digest = false ∧ rec.1 = e.resource_id) ∧
      StoreWF h store' ∧
      (∀ d c, P.contains d = true → storeGet store d = some c →
        storeGet store' d = some c) := by
  induction sel with
  | nil =>
      intro store acc store' recs hloop hwf
      unfold compressionProcessLoop at hloop
      cases hloop
      exact ⟨fun rec hrec => Or.inl hrec, hwf, fun d c _ hget => hget⟩
  | cons e rest ih =>
      intro store acc store' recs hloop hwf
      unfold compressionProcessLoop at hloop
      by_cases hp : P.contains e.digest = true
      · rw [if_pos hp] at hloop
        rcases ih store acc store' recs hloop hwf with ⟨h1, h2, h3⟩
        refine ⟨?_, h2, h3⟩
        intro rec hrec
        rcases h1 rec hrec with hin | ⟨e', he', hb, hr⟩
        · exact Or.inl hin
        · exact Or.inr ⟨e', List.mem_cons_of_mem e he', hb, hr⟩
      · rw [if_neg hp] at hloop
        have hpf : P.contains e.digest = false := by
          cases hcc : P.contains e.digest
          · rfl
          · exact absurd hcc hp
        rcases hget : storeGet store e.digest with _ | c
        · rw [compressOneEntry_red_none hget] at hloop
          cases hloop
        · rw [compressOneEntry_red hget] at hloop
          by_cases hkeep : keepCompressed thrNum thrDen e.size (compress c).length = true
          · rw [if_pos hkeep] at hloop
            have hwf1 : StoreWF h (storeUnlink
                (storeWrite store (h (compress c)) (compress c)) e.digest) :=
              storeWF_unlink (storeWF_write hwf (compress c)) e.digest
            rcases ih _ _ store' recs hloop hwf1 with ⟨h1, h2, h3⟩
            refine ⟨?_, h2, ?_⟩
            · intro rec hrec
              rcases h1 rec hrec with hin | ⟨e', he', hb, hr⟩
              · rcases List.mem_append.1 hin with h4 | h4
                · exact Or.inl h4
                · have : rec = (e.resource_id, h (compress c), (compress c).length) := by
                    simpa using h4
                  exact Or.inr ⟨e, List.mem_cons_self e rest, hpf, by rw [this]⟩
              · exact Or.inr ⟨e', List.mem_cons_of_mem e he', hb, hr⟩
            · intro d c0 hd hget0
              apply h3 d c0 hd
              rw [storeGet_unlink_ne (storeWrite store (h (compress c)) (compress c))
                e.digest d (Ne.symm (ne_of_contains_baln hd hpf))]
              exact storeGet_write_of_wf hinj hwf hget0 (compress c)
          · rw [if_neg hkeep] at hloop
            rcases ih store _ store' recs hloop hwf with ⟨h1, h2, h3⟩
            refine ⟨?_, h2, h3⟩
            intro rec hrec
            rcases h1 rec hrec with hin | ⟨e', he', hb, hr⟩
            · rcases List.mem_append.1 hin with h4 | h4
              · exact Or.inl h4
              · simp at h4
            · exact Or.inr ⟨e', List.mem_cons_of_mem e he', hb, hr⟩

theorem compressionUpdateDb_preserves {tbl : List RstRow}
    {recs : List (Nat × Digest × Nat)} {r : RstRow} (hr : r ∈ tbl)
    (hne : ∀ rec ∈ recs, rec.1 ≠ r.resource_id) :
    r ∈ compressionUpdateDb tbl recs := by
  unfold compressionUpdateDb
  have h1 : r ∈ recs.foldl (fun t rec => rstInsertIgnoreAuto t rec.2.1 rec.2.2) tbl := by
    clear hne
    induction recs generalizing tbl with
    | nil => exact hr
    | cons rec rest ih => exact ih (mem_rstInsertIgnoreAuto hr rec.2.1 rec.2.2)
  generalize recs.foldl (fun t rec => rstInsertIgnoreAuto t rec.2.1 rec.2.2) tbl = tbl1 at h1
  clear hr
  induction recs generalizing tbl1 with
  | nil => exact h1
  | cons rec rest ih =>
      rw [List.foldl_cons]
      apply ih (fun rec' hrec' => hne rec' (List.mem_cons_of_mem rec hrec'))
      rcases hf : tableFindByDigest tbl1 rec.2.1 with _ | crow
      · simp only [hf]
        exact h1
      · simp only [hf]
        exact mem_updateFilterByRid_of_ne h1 rec.1 _
          (fun hc => hne rec (List.mem_cons_self rec rest) hc.symm)

theorem compressionRun_preserves {h compress : Bytes → Bytes}
    (hinj : Function.Injective h) {thrNum thrDen : Nat} {protectedSet : List Digest}
    {lower : Nat} {s s' : PipeState}
    (hrun : compressionRun h compress thrNum thrDen protectedSet lower s = some s')
    (hwf : StoreWF h s.store) (hnodup : (s.table.map (·.resource_id)).Nodup)
    {r : RstRow} (hr : r ∈ s.table)
    (hcond : r.filter_applied ≠ none ∨ protectedSet.contains r.digest = true) :
    r ∈ s'.table := by
  unfold compressionRun at hrun
  rcases hloop : compressionProcessLoop h compress thrNum thrDen protectedSet s.store
      (sqlCompressionSelect lower s.table) [] with _ | ⟨store', recs⟩
  · simp only [hloop] at hrun
    cases hrun
  · simp only [hloop] at hrun
    cases hrun
    have hfacts := compressionProcessLoop_facts hinj thrNum thrDen protectedSet _
      s.store [] store' recs hloop hwf
    apply compressionUpdateDb_preserves hr
    intro rec hrec hcontra
    rcases hfacts.1 rec hrec with hin | ⟨e, he, hnc, hrid⟩
    · cases hin
    · rcases mem_sqlCompressionSelect he with ⟨row0, hrow0, hfa0, _, hrid0, hdig0, _⟩
      have hre : row0.resource_id = r.resource_id := by rw [hrid0, ← hrid, hcontra]
      have hrow0r : row0 = r := eq_of_mem_of_rid_eq hnodup hrow0 hr hre
      rcases hcond with hfane | hprot
      · rw [hrow0r] at hfa0
        exact hfane hfa0
      · have : protectedSet.contains e.digest = true := by
          rw [← hdig0, hrow0r]
          exact hprot
        rw [this] at hnc
        cases hnc

theorem compressionRun_store_protected {h compress : Bytes → Bytes}
    (hinj : Function.Injective h) {thrNum thrDen : Nat} {protectedSet : List Digest}
    {lower : Nat} {s s' : PipeState}
    (hrun : compressionRun h compress thrNum thrDen protectedSet lower s = some s')
    (hwf : StoreWF h s.store) {d : Digest} {c : Bytes}
    (hd : protectedSet.contains d = true) (hget : storeGet s.store d = some c) :
    storeGet s'.store d = some c := by
  unfold compressionRun at hrun
  rcases hloop : compressionProcessLoop h compress thrNum thrDen protectedSet s.store
      (sqlCompressionSelect lower s.table) [] with _ | ⟨store', recs⟩
  · simp only [hloop] at hrun
    cases hrun
  · simp only [hloop] at hrun
    cases hrun
    exact (compressionProcessLoop_facts hinj thrNum thrDen protectedSet _
      s.store [] store' recs hloop hwf).2.2 d c hd hget

/-! ## Slice run preservation lemmas -/

theorem processOneOrigin_red {h : Bytes → Bytes} {M : Nat} {store : Store}
    {digest : Digest} {bs : Bytes} (hc : storeGet store digest = some bs) :
    processOneOrigin h M store digest =
      some (storeUnlink ((sliceChunks M bs).foldl
          (fun s c => storeWrite s (h c) c) store) digest,
        (sliceChunks M bs).foldl (fun a c => assocSet a (h c) c.length) []) := by
  have h1 : processOneOrigin h M store digest =
      some (storeUnlink ((sliceChunks M bs).foldl
          (fun (p : Store × List (Digest × Nat)) c =>
            (storeWrite p.1 (h c) c, assocSet p.2 (h c) c.length)) (store, [])).1
          digest,
        ((sliceChunks M bs).foldl
          (fun (p : Store × List (Digest × Nat)) c =>
            (storeWrite p.1 (h c) c, assocSet p.2 (h c) c.length)) (store, [])).2) := by
    unfold processOneOrigin
    rw [hc]
  rw [h1, pairFold_split]

theorem processOneOrigin_red_none {h : Bytes → Bytes} {M : Nat} {store : Store}
    {digest : Digest} (hc : storeGet store digest = none) :
    processOneOrigin h M store digest = none := by
  unfold processOneOrigin
  rw [hc]

theorem processOneOrigin_facts {h : Bytes → Bytes} (hinj : Function.Injective h)
    {M : Nat} {store : Store} {digest : Digest} {store' : Store}
    {slices : List (Digest × Nat)}
    (hp : processOneOrigin h M store digest = some (store', slices))
    (hwf : StoreWF h store) (hM : 0 < M) :
    StoreWF h store' ∧ (∀ ds ∈ slices, ds.2 ≤ M) ∧
    (∀ d c, d ≠ digest → storeGet store d = some c → storeGet store' d = some c) := by
  rcases hget : storeGet store digest with _ | bs
  · rw [processOneOrigin_red_none hget] at hp
    cases hp
  · rw [processOneOrigin_red hget] at hp
    cases hp
    refine ⟨storeWF_unlink (foldWrite_wf h _ store hwf) digest, ?_, ?_⟩
    · intro ds hds
      rcases foldAssoc_inv h _ [] ds hds with hin | ⟨c, hcmem, rfl⟩
      · cases hin
      · exact sliceChunks_length_le M bs hM c hcmem
    · intro d c hne hget0
      rw [storeGet_unlink_ne _ digest d hne]
      exact foldWrite_preserve h hinj _ store d c hwf hget0

theorem sliceProcessLoop_facts {h : Bytes → Bytes} (hinj : Function.Injective h)
    {M : Nat} (hM : 0 < M) (P : List Digest) (sel : List EntryToBeBundled) :
    ∀ (store : Store) (acc : List (Nat × List (Digest × Nat))) (store' : Store)
      (queue : List (Nat × List (Digest × Nat))),
      sliceProcessLoop h M P store sel acc = some (store', queue) →
      StoreWF h store →
      (∀ q ∈ acc, q ∈ queue) ∧
      (∀ q ∈ queue, q ∈ acc ∨ ∃ e ∈ sel, P.contains e.digest = false ∧
        q.1 = e.resource_id ∧ ∀ ds ∈ q.2, ds.2 ≤ M) ∧
      StoreWF h store' ∧
      (∀ d c, P.contains d = true → storeGet store d = some c →
        storeGet store' d = some c) ∧
      (∀ e ∈ sel, P.contains e.digest = false →
        ∃ q ∈ queue, q.1 = e.resource_id) := by
  induction sel with
  | nil =>
      intro store acc store' queue hloop hwf
      unfold sliceProcessLoop at hloop
      cases hloop
      exact ⟨fun q hq => hq, fun q hq => Or.inl hq, hwf, fun d c _ hget => hget,
        fun e he => absurd he (List.not_mem_nil e)⟩
  | cons e rest ih =>
      intro store acc store' queue hloop hwf
      unfold sliceProcessLoop at hloop
      by_cases hp : P.contains e.digest = true
      · rw [if_pos hp] at hloop
        rcases ih store acc store' queue hloop hwf with ⟨h0, h1, h2, h3, h4⟩
        refine ⟨h0, ?_, h2, h3, ?_⟩
        · intro q hq
          rcases h1 q hq with hin | ⟨e', he', hx⟩
          · exact Or.inl hin
          · exact Or.inr ⟨e', List.mem_cons_of_mem e he', hx⟩
        · intro e' he' hnc
          rcases List.mem_cons.1 he' with rfl | he'r
          · rw [hp] at hnc
            cases hnc
          · exact h4 e' he'r hnc
      · rw [if_neg hp] at hloop
        have hpf : P.contains e.digest = false := by
          cases hcc : P.contains e.digest
          · rfl
          · exact absurd hcc hp
        rcases hpo : processOneOrigin h M store e.digest with _ | ⟨store1, slices⟩
        · rw [hpo] at hloop
          cases hloop
        · rw [hpo] at hloop
          rcases processOneOrigin_facts hinj hpo hwf hM with ⟨hwf1, hsz, hpres⟩
          rcases ih store1 (acc ++ [(e.resource_id, slices)]) store' queue hloop hwf1
            with ⟨h0, h1, h2, h3, h4⟩
          refine ⟨?_, ?_, h2, ?_, ?_⟩
          · intro q hq
            exact h0 q (List.mem_append_left _ hq)
          · intro q hq
            rcases h1 q hq with hin | ⟨e', he', hx⟩
            · rcases List.mem_append.1 hin with h5 | h5
              · exact Or.inl h5
              · have : q = (e.resource_id, slices) := by simpa using h5
                subst this
                exact Or.inr ⟨e, List.mem_cons_self e rest, hpf, rfl, hsz⟩
            · exact Or.inr ⟨e', List.mem_cons_of_mem e he', hx⟩
          · intro d c hd hget0
            exact h3 d c hd (hpres d c (ne_of_contains_baln hd hpf).symm hget0)
          · intro e' he' hnc
            rcases List.mem_cons.1 he' with rfl | he'r
            · exact ⟨(e'.resource_id, slices),
                h0 _ (List.mem_append_right _ (List.mem_singleton.2 rfl)), rfl⟩
            · exact h4 e' he'r hnc

theorem mem_rstInsertIgnoreRow_inv {tbl : List RstRow} {row r' : RstRow}
    (h : r' ∈ rstInsertIgnoreRow tbl row) : r' ∈ tbl ∨ r' = row := by
  unfold rstInsertIgnoreRow at h
  split at h
  · exact Or.inl h
  · rcases List.mem_append.1 h with h1 | h1
    · exact Or.inl h1
    · exact Or.inr (List.mem_singleton.1 h1)

/-- No row with an already-present `resource_id` is ever appended. -/
theorem rstInsertIgnoreRow_rid {tbl : List RstRow} {row r' : RstRow}
    (h : r' ∈ rstInsertIgnoreRow tbl row) (hrid : ∃ r ∈ tbl, r.resource_id = r'.resource_id)
    (hnotin : r' ∉ tbl) : False := by
  rcases mem_rstInsertIgnoreRow_inv h with h1 | rfl
  · exact hnotin h1
  · unfold rstInsertIgnoreRow at h
    rcases hrid with ⟨r0, hr0, hr0e⟩
    have hany : (tbl.any fun r => r.digest == r'.digest || r.resource_id == r'.resource_id) = true := by
      apply List.any_eq_true.2
      exact ⟨r0, hr0, by simp [hr0e]⟩
    rw [if_pos hany] at h
    exact hnotin h

/-- The `Q` invariant: every row carrying this `resource_id` has a non-null
`filter_applied`. -/
def RidApplied (tbl : List RstRow) (rid : Nat) : Prop :=
  ∀ r ∈ tbl, r.resource_id = rid → r.filter_applied ≠ none

/-- The `E` invariant: some row carries this `resource_id`. -/
def RidPresent (tbl : List RstRow) (rid : Nat) : Prop :=
  ∃ r ∈ tbl, r.resource_id = rid

theorem updateFilterByRid_rid_present {tbl : List RstRow} {rid : Nat}
    (hE : RidPresent tbl rid) (x : Nat) (fa : FilterApplied) :
    RidPresent (updateFilterByRid tbl x fa) rid := by
  rcases hE with ⟨r, hr, hre⟩
  by_cases hc : (r.resource_id == x) = true
  · refine ⟨{ r with filter_applied := some fa }, ?_, hre⟩
    unfold updateFilterByRid
    have : (fun row => if row.resource_id == x then
        { row with filter_applied := some fa } else row) r =
        { r with filter_applied := some fa } := by simp [hc]
    exact this ▸ List.mem_map_of_mem _ hr
  · refine ⟨r, ?_, hre⟩
    unfold updateFilterByRid
    have : (fun row => if row.resource_id == x then
        { row with filter_applied := some fa } else row) r = r := by
      simp only [hc, Bool.false_eq_true, if_false]
    exact this ▸ List.mem_map_of_mem _ hr

theorem updateFilterByRid_applied_pres {tbl : List RstRow} {rid : Nat}
    (hQ : RidApplied tbl rid) (x : Nat) (fa : FilterApplied) :
    RidApplied (updateFilterByRid tbl x fa) rid := by
  intro r' hr' hre
  rcases List.mem_map.1 hr' with ⟨r, hr, heq⟩
  by_cases hc : (r.resource_id == x) = true
  · simp only [hc, if_true] at heq
    rw [← heq]
    simp
  · simp only [hc, Bool.false_eq_true, if_false] at heq
    subst heq
    exact hQ r hr hre

theorem updateFilterByRid_applied_self {tbl : List RstRow} {rid : Nat}
    (fa : FilterApplied) : RidApplied (updateFilterByRid tbl rid fa) rid := by
  intro r' hr' hre
  rcases List.mem_map.1 hr' with ⟨r, hr, heq⟩
  by_cases hc : (r.resource_id == rid) = true
  · simp only [hc, if_true] at heq
    rw [← heq]
    simp
  · simp only [hc, Bool.false_eq_true, if_false] at heq
    subst heq
    exact absurd hre (by simpa using hc)

theorem rstInsertIgnoreRow_applied_pres {tbl : List RstRow} {rid : Nat} {row : RstRow}
    (hE : RidPresent tbl rid) (hQ : RidApplied tbl rid) :
    RidApplied (rstInsertIgnoreRow tbl row) rid := by
  intro r' hr' hre
  by_cases hin : r' ∈ tbl
  · exact hQ r' hin hre
  · exfalso
    apply rstInsertIgnoreRow_rid hr' _ hin
    rcases hE with ⟨r0, hr0, hr0e⟩
    exact ⟨r0, hr0, by rw [hr0e, hre]⟩

theorem rstInsertIgnoreRow_rid_present {tbl : List RstRow} {rid : Nat} {row : RstRow}
    (hE : RidPresent tbl rid) : RidPresent (rstInsertIgnoreRow tbl row) rid := by
  rcases hE with ⟨r, hr, hre⟩
  exact ⟨r, mem_rstInsertIgnoreRow hr row, hre⟩

/-- A fold each of whose steps preserves a predicate preserves it. -/
theorem foldl_pres {α β : Type} (P : β → Prop) (g : β → α → β)
    (hstep : ∀ b a, P b → P (g b a)) :
    ∀ (l : List α) (b : β), P b → P (l.foldl g b) := by
  intro l
  induction l with
  | nil => intro b hb; exact hb
  | cons a t ih => intro b hb; exact ih (g b a) (hstep b a hb)

/-- `updateOneBatch` unfolded: insert the slice rows, then set every origin
row's `filter_applied`. -/
theorem updateOneBatch_snd (tbl : List RstRow)
    (batch : List (Nat × List (Digest × Nat))) (cur : Nat) :
    (updateOneBatch tbl batch cur).2 =
      batch.foldl
        (fun t e => updateFilterByRid t e.1
          (.sliceF (e.2.map fun ds =>
            (assocGet (planningRsId tbl batch cur []).2 ds.1).getD 0)))
        (batch.foldl
          (fun t e => e.2.foldl
            (fun t2 ds => rstInsertIgnoreRow t2
              ⟨(assocGet (planningRsId tbl batch cur []).2 ds.1).getD 0, ds.1, ds.2, none⟩)
            t)
          tbl) := rfl

theorem foldUpdate_mem_of_ne {r : RstRow}
    {faOf : Nat × List (Digest × Nat) → FilterApplied} :
    ∀ (batch : List (Nat × List (Digest × Nat))) (tbl : List RstRow), r ∈ tbl →
      (∀ q ∈ batch, q.1 ≠ r.resource_id) →
      r ∈ batch.foldl (fun t e => updateFilterByRid t e.1 (faOf e)) tbl := by
  intro batch
  induction batch with
  | nil => intro tbl hr _; exact hr
  | cons e rest ih =>
      intro tbl hr hne
      simp only [List.foldl_cons]
      refine ih _ (mem_updateFilterByRid_of_ne hr e.1 (faOf e) ?_) ?_
      · exact fun hco => hne e (List.mem_cons_self e rest) hco.symm
      · exact fun q hq => hne q (List.mem_cons_of_mem e hq)

theorem foldUpdate_applied_set {rid : Nat}
    {faOf : Nat × List (Digest × Nat) → FilterApplied} :
    ∀ (batch : List (Nat × List (Digest × Nat))) (tbl : List RstRow),
      (∃ q ∈ batch, q.1 = rid) →
      RidApplied (batch.foldl (fun t e => updateFilterByRid t e.1 (faOf e)) tbl) rid := by
  intro batch
  induction batch with
  | nil =>
      intro tbl hq
      rcases hq with ⟨q, hq, _⟩
      cases hq
  | cons e rest ih =>
      intro tbl hq
      simp only [List.foldl_cons]
      by_cases hcase : e.1 = rid
      · subst hcase
        exact foldl_pres (fun t => RidApplied t e.1) _
          (fun t a ht => updateFilterByRid_applied_pres ht _ _) rest _
          (updateFilterByRid_applied_self (faOf e))
      · rcases hq with ⟨q, hq, hqe⟩
        rcases List.mem_cons.1 hq with rfl | hqr
        · exact absurd hqe hcase
        · exact ih _ ⟨q, hqr, hqe⟩

theorem foldUpdate_prov {faOf : Nat × List (Digest × Nat) → FilterApplied} :
    ∀ (batch : List (Nat × List (Digest × Nat))) (tbl : List RstRow),
      ∀ r' ∈ batch.foldl (fun t e => updateFilterByRid t e.1 (faOf e)) tbl,
        ∃ r ∈ tbl, r'.resource_id = r.resource_id ∧ r'.digest = r.digest ∧
          r'.size = r.size ∧
          (r'.filter_applied = r.filter_applied ∨
            ∃ e ∈ batch, r'.filter_applied = some (faOf e)) := by
  intro batch
  induction batch with
  | nil => intro tbl r' hr'; exact ⟨r', hr', rfl, rfl, rfl, Or.inl rfl⟩
  | cons e rest ih =>
      intro tbl r' hr'
      simp only [List.foldl_cons] at hr'
      rcases ih _ r' hr' with ⟨rmid, hmid, h1, h2, h3, h4⟩
      rcases updateFilterByRid_shape e.1 (faOf e) rmid hmid with ⟨r, hr, g1, g2, g3, g4⟩
      refine ⟨r, hr, h1.trans g1, h2.trans g2, h3.trans g3, ?_⟩
      rcases h4 with h4 | ⟨e', he', h4⟩
      · rcases g4 with g4 | g4
        · exact Or.inl (h4.trans g4)
        · exact Or.inr ⟨e, List.mem_cons_self e rest, h4.trans g4⟩
      · exact Or.inr ⟨e', List.mem_cons_of_mem e he', h4⟩

theorem foldInsertInner_prov {pl : Digest → Nat} :
    ∀ (slices : List (Digest × Nat)) (tbl : List RstRow),
      ∀ r' ∈ slices.foldl
          (fun t2 ds => rstInsertIgnoreRow t2 ⟨pl ds.1, ds.1, ds.2, none⟩) tbl,
        r' ∈ tbl ∨ ∃ ds ∈ slices, r'.size = ds.2 ∧ r'.filter_applied = none := by
  intro slices
  induction slices with
  | nil => intro tbl r' hr'; exact Or.inl hr'
  | cons ds rest ih =>
      intro tbl r' hr'
      simp only [List.foldl_cons] at hr'
      rcases ih _ r' hr' with hin | ⟨ds', hds', hx⟩
      · rcases mem_rstInsertIgnoreRow_inv hin with hin2 | rfl
        · exact Or.inl hin2
        · exact Or.inr ⟨ds, List.mem_cons_self ds rest, rfl, rfl⟩
      · exact Or.inr ⟨ds', List.mem_cons_of_mem ds hds', hx⟩

theorem foldInsert_prov {pl : Digest → Nat} :
    ∀ (batch : List (Nat × List (Digest × Nat))) (tbl : List RstRow),
      ∀ r' ∈ batch.foldl
          (fun t e => e.2.foldl
            (fun t2 ds => rstInsertIgnoreRow t2 ⟨pl ds.1, ds.1, ds.2, none⟩) t) tbl,
        r' ∈ tbl ∨ ∃ q ∈ batch, ∃ ds ∈ q.2, r'.size = ds.2 ∧ r'.filter_applied = none := by
  intro batch
  induction batch with
  | nil => intro tbl r' hr'; exact Or.inl hr'
  | cons e rest ih =>
      intro tbl r' hr'
      simp only [List.foldl_cons] at hr'
      rcases ih _ r' hr' with hin | ⟨q, hq, hx⟩
      · rcases foldInsertInner_prov e.2 tbl r' hin with hin2 | ⟨ds, hds, hx⟩
        · exact Or.inl hin2
        · exact Or.inr ⟨e, List.mem_cons_self e rest, ds, hds, hx⟩
      · exact Or.inr ⟨q, List.mem_cons_of_mem e hq, hx⟩

theorem updateOneBatch_mem_of_ne {tbl : List RstRow}
    {batch : List (Nat × List (Digest × Nat))} {cur : Nat} {r : RstRow}
    (hr : r ∈ tbl) (hne : ∀ q ∈ batch, q.1 ≠ r.resource_id) :
    r ∈ (updateOneBatch tbl batch cur).2 := by
  rw [updateOneBatch_snd]
  apply foldUpdate_mem_of_ne batch _ _ hne
  apply foldl_pres (fun t => r ∈ t) _ ?_ batch tbl hr
  intro t e ht
  exact foldl_pres (fun t2 => r ∈ t2) _ (fun t2 ds h2 => mem_rstInsertIgnoreRow h2 _) e.2 t ht

theorem updateOneBatch_rid_present {tbl : List RstRow}
    {batch : List (Nat × List (Digest × Nat))} {cur : Nat} {rid : Nat}
    (hE : RidPresent tbl rid) : RidPresent (updateOneBatch tbl batch cur).2 rid := by
  rw [updateOneBatch_snd]
  apply foldl_pres (fun t => RidPresent t rid) _
    (fun t e ht => updateFilterByRid_rid_present ht _ _) batch
  apply foldl_pres (fun t => RidPresent t rid) _ ?_ batch tbl hE
  intro t e ht
  exact foldl_pres (fun t2 => RidPresent t2 rid) _
    (fun t2 ds h2 => rstInsertIgnoreRow_rid_present h2) e.2 t ht

theorem updateOneBatch_applied_pres {tbl : List RstRow}
    {batch : List (Nat × List (Digest × Nat))} {cur : Nat} {rid : Nat}
    (hE : RidPresent tbl rid) (hQ : RidApplied tbl rid) :
    RidApplied (updateOneBatch tbl batch cur).2 rid := by
  rw [updateOneBatch_snd]
  have hmid : RidPresent (batch.foldl
      (fun t e => e.2.foldl
        (fun t2 ds => rstInsertIgnoreRow t2
          ⟨(assocGet (planningRsId tbl batch cur []).2 ds.1).getD 0, ds.1, ds.2, none⟩)
        t) tbl) rid ∧
      RidApplied (batch.foldl
      (fun t e => e.2.foldl
        (fun t2 ds => rstInsertIgnoreRow t2
          ⟨(assocGet (planningRsId tbl batch cur []).2 ds.1).getD 0, ds.1, ds.2, none⟩)
        t) tbl) rid := by
    apply foldl_pres (fun t => RidPresent t rid ∧ RidApplied t rid) _ ?_ batch tbl ⟨hE, hQ⟩
    intro t e ht
    exact foldl_pres (fun t2 => RidPresent t2 rid ∧ RidApplied t2 rid) _
      (fun t2 ds h2 => ⟨rstInsertIgnoreRow_rid_present h2.1,
        rstInsertIgnoreRow_applied_pres h2.1 h2.2⟩) e.2 t ht
  exact foldl_pres (fun t => RidApplied t rid) _
    (fun t e ht => updateFilterByRid_applied_pres ht _ _) batch _ hmid.2

theorem updateOneBatch_applied_set {tbl : List RstRow}
    {batch : List (Nat × List (Digest × Nat))} {cur : Nat} {rid : Nat}
    (hq : ∃ q ∈ batch, q.1 = rid) :
    RidApplied (updateOneBatch tbl batch cur).2 rid := by
  rw [updateOneBatch_snd]
  exact foldUpdate_applied_set batch _ hq

/-- Provenance of a row after one database batch: it is either an untouched or
slice-marked image of an original row, or a freshly inserted slice row whose
size is one of the batch's recorded slice sizes. -/
def SliceProv (tbl : List RstRow) (pend : List (Nat × List (Digest × Nat)))
    (r' : RstRow) : Prop :=
  (∃ r ∈ tbl, r'.resource_id = r.resource_id ∧ r'.digest = r.digest ∧
    r'.size = r.size ∧
    (r'.filter_applied = r.filter_applied ∨
      ∃ ids, r'.filter_applied = some (.sliceF ids))) ∨
  (∃ q ∈ pend, ∃ ds ∈ q.2, r'.size = ds.2)

theorem sliceProv_self {tbl : List RstRow} {pend : List (Nat × List (Digest × Nat))}
    {r : RstRow} (hr : r ∈ tbl) : SliceProv tbl pend r :=
  Or.inl ⟨r, hr, rfl, rfl, rfl, Or.inl rfl⟩

theorem sliceProv_mono {tbl : List RstRow}
    {pend pend' : List (Nat × List (Digest × Nat))} {r' : RstRow}
    (hsub : ∀ q ∈ pend, q ∈ pend') (h : SliceProv tbl pend r') :
    SliceProv tbl pend' r' := by
  rcases h with h | ⟨q, hq, hx⟩
  · exact Or.inl h
  · exact Or.inr ⟨q, hsub q hq, hx⟩

theorem sliceProv_comp {tbl mid : List RstRow}
    {pend1 pend2 : List (Nat × List (Digest × Nat))} {r' : RstRow}
    (hmid : ∀ rm ∈ mid, SliceProv tbl pend1 rm)
    (h : SliceProv mid pend2 r') : SliceProv tbl (pend1 ++ pend2) r' := by
  rcases h with ⟨rm, hrm, e1, e2, e3, e4⟩ | ⟨q, hq, ds, hds, hsz⟩
  · rcases hmid rm hrm with ⟨r, hr, f1, f2, f3, f4⟩ | ⟨q, hq, ds, hds, hsz⟩
    · refine Or.inl ⟨r, hr, e1.trans f1, e2.trans f2, e3.trans f3, ?_⟩
      rcases e4 with e4 | ⟨ids, e4⟩
      · rcases f4 with f4 | ⟨ids, f4⟩
        · exact Or.inl (e4.trans f4)
        · exact Or.inr ⟨ids, e4.trans f4⟩
      · exact Or.inr ⟨ids, e4⟩
    · exact Or.inr ⟨q, List.mem_append_left _ hq, ds, hds, e3.trans hsz⟩
  · exact Or.inr ⟨q, List.mem_append_right _ hq, ds, hds, hsz⟩

theorem updateOneBatch_prov {tbl : List RstRow}
    {batch : List (Nat × List (Digest × Nat))} {cur : Nat} :
    ∀ r' ∈ (updateOneBatch tbl batch cur).2, SliceProv tbl batch r' := by
  intro r' hr'
  rw [updateOneBatch_snd] at hr'
  rcases foldUpdate_prov batch _ r' hr' with ⟨rmid, hmid, h1, h2, h3, h4⟩
  rcases @foldInsert_prov (fun d => (assocGet (planningRsId tbl batch cur []).2 d).getD 0)
      batch tbl rmid hmid with hin | ⟨q, hq, ds, hds, hx, _⟩
  · refine Or.inl ⟨rmid, hin, h1, h2, h3, ?_⟩
    rcases h4 with h4 | ⟨e, _, h4⟩
    · exact Or.inl h4
    · exact Or.inr ⟨_, h4⟩
  · exact Or.inr ⟨q, hq, ds, hds, h3.trans hx⟩

theorem sliceUpdateDb_mem_of_ne {r : RstRow} (bsz : Nat) :
    ∀ (queue batch : List (Nat × List (Digest × Nat))) (cur : Nat)
      (tbl : List RstRow), r ∈ tbl →
      (∀ q ∈ batch ++ queue, q.1 ≠ r.resource_id) →
      r ∈ sliceUpdateDb bsz queue batch cur tbl := by
  intro queue
  induction queue with
  | nil =>
      intro batch cur tbl hr hne
      simp only [sliceUpdateDb]
      split
      · exact hr
      · exact updateOneBatch_mem_of_ne hr
          (fun q hq => hne q (by simpa using List.mem_append_left [] hq))
  | cons e rest ih =>
      intro batch cur tbl hr hne
      simp only [sliceUpdateDb]
      split
      · apply ih [] _ _ (updateOneBatch_mem_of_ne hr ?_) ?_
        · intro q hq
          apply hne q
          rcases List.mem_append.1 hq with h1 | h1
          · exact List.mem_append_left _ h1
          · have : q = e := by simpa using h1
            subst this
            exact List.mem_append_right _ (List.mem_cons_self q rest)
        · intro q hq
          simp only [List.nil_append] at hq
          exact hne q (List.mem_append_right _ (List.mem_cons_of_mem e hq))
      · apply ih (batch ++ [e]) _ _ hr
        intro q hq
        apply hne q
        rw [List.append_assoc, List.singleton_append] at hq
        exact hq

theorem sliceUpdateDb_rid_present {rid : Nat} (bsz : Nat) :
    ∀ (queue batch : List (Nat × List (Digest × Nat))) (cur : Nat)
      (tbl : List RstRow), RidPresent tbl rid →
      RidPresent (sliceUpdateDb bsz queue batch cur tbl) rid := by
  intro queue
  induction queue with
  | nil =>
      intro batch cur tbl hE
      simp only [sliceUpdateDb]
      split
      · exact hE
      · exact updateOneBatch_rid_present hE
  | cons e rest ih =>
      intro batch cur tbl hE
      simp only [sliceUpdateDb]
      split
      · exact ih _ _ _ (updateOneBatch_rid_present hE)
      · exact ih _ _ _ hE

theorem sliceUpdateDb_applied_pres {rid : Nat} (bsz : Nat) :
    ∀ (queue batch : List (Nat × List (Digest × Nat))) (cur : Nat)
      (tbl : List RstRow), RidPresent tbl rid → RidApplied tbl rid →
      RidApplied (sliceUpdateDb bsz queue batch cur tbl) rid := by
  intro queue
  induction queue with
  | nil =>
      intro batch cur tbl hE hQ
      simp only [sliceUpdateDb]
      split
      · exact hQ
      · exact updateOneBatch_applied_pres hE hQ
  | cons e rest ih =>
      intro batch cur tbl hE hQ
      simp only [sliceUpdateDb]
      split
      · exact ih _ _ _ (updateOneBatch_rid_present hE) (updateOneBatch_applied_pres hE hQ)
      · exact ih _ _ _ hE hQ

theorem sliceUpdateDb_applied_set {rid : Nat} (bsz : Nat) :
    ∀ (queue batch : List (Nat × List (Digest × Nat))) (cur : Nat)
      (tbl : List RstRow), RidPresent tbl rid →
      (∃ q ∈ batch ++ queue, q.1 = rid) →
      RidApplied (sliceUpdateDb bsz queue batch cur tbl) rid := by
  intro queue
  induction queue with
  | nil =>
      intro batch cur tbl hE hq
      simp only [List.append_nil] at hq
      simp only [sliceUpdateDb]
      split
      · rename_i hemp
        simp only [List.isEmpty_iff] at hemp
        subst hemp
        rcases hq with ⟨q, hq, _⟩
        cases hq
      · exact updateOneBatch_applied_set hq
  | cons e rest ih =>
      intro batch cur tbl hE hq
      simp only [sliceUpdateDb]
      split
      · by_cases hin : ∃ q ∈ batch ++ [e], q.1 = rid
        · exact sliceUpdateDb_applied_pres bsz rest [] _ _
            (updateOneBatch_rid_present hE) (updateOneBatch_applied_set hin)
        · have hrest : ∃ q ∈ rest, q.1 = rid := by
            rcases hq with ⟨q, hq, hqe⟩
            rcases List.mem_append.1 hq with h1 | h1
            · exact absurd ⟨q, List.mem_append_left _ h1, hqe⟩ hin
            · rcases List.mem_cons.1 h1 with rfl | h1
              · exact absurd ⟨q, List.mem_append_right _ (List.mem_singleton.2 rfl), hqe⟩ hin
              · exact ⟨q, h1, hqe⟩
          apply ih [] _ _ (updateOneBatch_rid_present hE)
          simpa using hrest
      · apply ih (batch ++ [e]) _ _ hE
        rcases hq with ⟨q, hq, hqe⟩
        refine ⟨q, ?_, hqe⟩
        rw [List.append_assoc, List.singleton_append]
        exact hq

theorem sliceUpdateDb_prov (bsz : Nat) :
    ∀ (queue batch : List (Nat × List (Digest × Nat))) (cur : Nat)
      (tbl : List RstRow),
      ∀ r' ∈ sliceUpdateDb bsz queue batch cur tbl,
        SliceProv tbl (batch ++ queue) r' := by
  intro queue
  induction queue with
  | nil =>
      intro batch cur tbl r' hr'
      simp only [sliceUpdateDb] at hr'
      rw [List.append_nil]
      split at hr'
      · exact sliceProv_self hr'
      · exact updateOneBatch_prov r' hr'
  | cons e rest ih =>
      intro batch cur tbl r' hr'
      simp only [sliceUpdateDb] at hr'
      split at hr'
      · have h2 := ih [] _ _ r' hr'
        simp only [List.nil_append] at h2
        have h3 := sliceProv_comp (fun rm hrm => updateOneBatch_prov rm hrm) h2
        apply sliceProv_mono ?_ h3
        intro q hq
        rw [List.append_assoc, List.singleton_append] at hq
        exact hq
      · have h2 := ih (batch ++ [e]) _ _ r' hr'
        apply sliceProv_mono ?_ h2
        intro q hq
        rw [List.append_assoc, List.singleton_append] at hq
        exact hq

theorem sliceProcessLoop_all_protected {h : Bytes → Bytes} {M : Nat}
    {P : List Digest} {store : Store} :
    ∀ (sel : List EntryToBeBundled) (acc : List (Nat × List (Digest × Nat))),
      (∀ e ∈ sel, P.contains e.digest = true) →
      sliceProcessLoop h M P store sel acc = some (store, acc) := by
  intro sel
  induction sel with
  | nil => intro acc _; rfl
  | cons e rest ih =>
      intro acc hall
      unfold sliceProcessLoop
      rw [if_pos (hall e (List.mem_cons_self e rest))]
      exact ih acc (fun e' he' => hall e' (List.mem_cons_of_mem e he'))

theorem sliceRun_red {h : Bytes → Bytes} {P : List Digest} {ss bs : Nat}
    {s : PipeState} {store' : Store} {queue : List (Nat × List (Digest × Nat))}
    (hloop : sliceProcessLoop h (maxSliceSize ss) P s.store
      (sqlSliceSelect ss s.table) [] = some (store', queue)) :
    sliceRun h P ss bs s =
      some ⟨sliceUpdateDb bs queue [] (count_entries_in_table s.table + 1) s.table,
        store'⟩ := by
  unfold sliceRun
  rw [hloop]

/-- After a successful slice-filter run, every row the slice SQL selection
would pick again is protected: a non-protected selected origin got its
`filter_applied` set, and every inserted slice row is too small to qualify. -/
theorem sliceRun_selects_protected_only {h : Bytes → Bytes}
    (hinj : Function.Injective h) {P : List Digest} {sliceSize batchSize : Nat}
    {s s1 : PipeState} (hrun : sliceRun h P sliceSize batchSize s = some s1)
    (hwf : StoreWF h s.store) (hM : 0 < sliceSize) :
    ∀ e2 ∈ sqlSliceSelect sliceSize s1.table, P.contains e2.digest = true := by
  unfold sliceRun at hrun
  rcases hloop : sliceProcessLoop h (maxSliceSize sliceSize) P s.store
      (sqlSliceSelect sliceSize s.table) [] with _ | ⟨store1, queue⟩
  · rw [hloop] at hrun
    cases hrun
  · rw [hloop] at hrun
    cases hrun
    have hM' : 0 < maxSliceSize sliceSize := by
      unfold maxSliceSize
      omega
    rcases sliceProcessLoop_facts hinj hM' P _ s.store [] store1 queue hloop hwf
      with ⟨_, hq, _, _, hsel⟩
    intro e2 he2
    rcases mem_sqlSliceSelect he2 with ⟨r', hr', hfa, hsz, hrid, hdg, _⟩
    by_contra hnp
    have hnp' : P.contains e2.digest = false := by
      cases hx : P.contains e2.digest
      · rfl
      · exact absurd hx hnp
    rcases sliceUpdateDb_prov batchSize queue []
        (count_entries_in_table s.table + 1) s.table r' hr'
      with ⟨r, hrt, g1, g2, g3, g4⟩ | ⟨q, hqm, ds, hds, hszq⟩
    · have hfa0 : r.filter_applied = none := by
        rcases g4 with g4 | ⟨ids, g4⟩
        · exact g4.symm.trans hfa
        · rw [hfa] at g4
          exact Option.noConfusion g4
      have hsz0 : 2 * sliceSize < r.size := g3 ▸ hsz
      have hmem := mem_sqlSliceSelect_of_row hrt hfa0 hsz0
      have hncp : P.contains r.digest = false := by
        rw [← g2, hdg]
        exact hnp'
      rcases hsel ⟨r.resource_id, r.digest, r.size⟩ hmem hncp with ⟨q, hqm, hq1⟩
      have hQ := sliceUpdateDb_applied_set batchSize queue []
        (count_entries_in_table s.table + 1) s.table ⟨r, hrt, rfl⟩ ⟨q, hqm, hq1⟩
      exact (hQ r' hr' g1) hfa
    · rcases hq q hqm with hacc | ⟨e, he, hncp2, hq1, hsizes⟩
      · cases hacc
      · have hle := hsizes ds hds
        unfold maxSliceSize at hle
        omega

/-- A second slice-filter run over the output of a first run is the
identity: every row it would select is protected, hence skipped, so neither
the table nor the store changes. -/
theorem sliceRun_idempotent {h : Bytes → Bytes} (hinj : Function.Injective h)
    {P : List Digest} {sliceSize batchSize : Nat} {s s1 : PipeState}
    (hrun : sliceRun h P sliceSize batchSize s = some s1)
    (hwf : StoreWF h s.store) (hM : 0 < sliceSize) :
    sliceRun h P sliceSize batchSize s1 = some s1 := by
  have hall := sliceRun_selects_protected_only hinj hrun hwf hM
  have hloop2 : sliceProcessLoop h (maxSliceSize sliceSize) P s1.store
      (sqlSliceSelect sliceSize s1.table) [] = some (s1.store, []) :=
    sliceProcessLoop_all_protected _ [] hall
  rw [sliceRun_red hloop2]
  rfl

theorem sliceRun_preserves {h : Bytes → Bytes} (hinj : Function.Injective h)
    {P : List Digest} {sliceSize batchSize : Nat} {s s' : PipeState}
    (hrun : sliceRun h P sliceSize batchSize s = some s')
    (hwf : StoreWF h s.store) (hM : 0 < sliceSize)
    (hnodup : (s.table.map (·.resource_id)).Nodup)
    {r : RstRow} (hr : r ∈ s.table)
    (hcond : r.filter_applied ≠ none ∨ P.contains r.digest = true) :
    r ∈ s'.table := by
  unfold sliceRun at hrun
  rcases hloop : sliceProcessLoop h (maxSliceSize sliceSize) P s.store
      (sqlSliceSelect sliceSize s.table) [] with _ | ⟨store1, queue⟩
  · rw [hloop] at hrun
    cases hrun
  · rw [hloop] at hrun
    cases hrun
    have hM' : 0 < maxSliceSize sliceSize := by
      unfold maxSliceSize
      omega
    rcases sliceProcessLoop_facts hinj hM' P _ s.store [] store1 queue hloop hwf
      with ⟨_, hq, _, _, _⟩
    apply sliceUpdateDb_mem_of_ne batchSize queue [] _ _ hr
    intro q hqm hcontra
    simp only [List.nil_append] at hqm
    rcases hq q hqm with hacc | ⟨e, he, hncp, hq1, _⟩
    · cases hacc
    · rcases mem_sqlSliceSelect he with ⟨re, hre, hfae, _, hride, hdige, _⟩
      have hrer : re = r :=
        eq_of_mem_of_rid_eq hnodup hre hr (by rw [hride, ← hq1, hcontra])
      rcases hcond with hfane | hprot
      · rw [hrer] at hfae
        exact hfane hfae
      · have : P.contains e.digest = true := by
          rw [← hdige, hrer]
          exact hprot
        rw [this] at hncp
        cases hncp

theorem sliceRun_store_protected {h : Bytes → Bytes} (hinj : Function.Injective h)
    {P : List Digest} {sliceSize batchSize : Nat} {s s' : PipeState}
    (hrun : sliceRun h P sliceSize batchSize s = some s')
    (hwf : StoreWF h s.store) (hM : 0 < sliceSize) {d : Digest} {c : Bytes}
    (hd : P.contains d = true) (hget : storeGet s.store d = some c) :
    storeGet s'.store d = some c := by
  unfold sliceRun at hrun
  rcases hloop : sliceProcessLoop h (maxSliceSize sliceSize) P s.store
      (sqlSliceSelect sliceSize s.table) [] with _ | ⟨store1, queue⟩
  · rw [hloop] at hrun
    cases hrun
  · rw [hloop] at hrun
    cases hrun
    have hM' : 0 < maxSliceSize sliceSize := by
      unfold maxSliceSize
      omega
    exact (sliceProcessLoop_facts hinj hM' P _ s.store [] store1 queue hloop
      hwf).2.2.2.1 d c hd hget

/-! ## Claim C2 -/

/-- C2: for every digest in the protected set, each of the three filters
(bundle, compression, slice) skips the corresponding resource-table row:
whatever run succeeds, the row is still in the table unchanged (in
particular its `filter_applied` is still whatever it was, e.g. null) and the
blob stored under its digest is neither rewritten nor unlinked. -/
theorem c2_protected_resources_skipped {h compress : Bytes → Bytes}
    (hinj : Function.Injective h) (P : List Digest)
    (lower upper exp maxSum thrNum thrDen lowerC sliceSize batchSize : Nat)
    (s : PipeState) (r : RstRow)
    (hr : r ∈ s.table) (hprot : P.contains r.digest = true)
    (hwf : StoreWF h s.store) (hnodup : (s.table.map (·.resource_id)).Nodup)
    (hss : 0 < sliceSize) :
    (∀ s', bundleFilterRun h compress P lower upper exp maxSum s = some s' →
      r ∈ s'.table ∧
      ∀ c, storeGet s.store r.digest = some c → storeGet s'.store r.digest = some c) ∧
    (∀ s', compressionRun h compress thrNum thrDen P lowerC s = some s' →
      r ∈ s'.table ∧
      ∀ c, storeGet s.store r.digest = some c → storeGet s'.store r.digest = some c) ∧
    (∀ s', sliceRun h P sliceSize batchSize s = some s' →
      r ∈ s'.table ∧
      ∀ c, storeGet s.store r.digest = some c → storeGet s'.store r.digest = some c) := by
  refine ⟨?_, ?_, ?_⟩
  · intro s' hrun
    exact ⟨bundleFilterRun_preserves hinj hrun hwf hnodup hr (Or.inr hprot),
      fun c hc => bundleFilterRun_store_protected hinj hrun hwf hprot hc⟩
  · intro s' hrun
    exact ⟨compressionRun_preserves hinj hrun hwf hnodup hr (Or.inr hprot),
      fun c hc => compressionRun_store_protected hinj hrun hwf hprot hc⟩
  · intro s' hrun
    exact ⟨sliceRun_preserves hinj hrun hwf hss hnodup hr (Or.inr hprot),
      fun c hc => sliceRun_store_protected hinj hrun hwf hss hprot hc⟩

theorem c2_protected_resources_skipped_witness :
    (⟨1, [7], 1, none⟩ : RstRow) ∈
      (PipeState.mk [⟨1, [7], 1, none⟩] [([7], [7])]).table ∧
    storeGet (PipeState.mk [⟨1, [7], 1, none⟩] [([7], [7])]).store [7] = some [7] := by
  have happ := @c2_protected_resources_skipped (fun b => b) (fun b => b)
    (fun a b hh => hh) [[7]]
    2 20 8 1000 5 4 2 1 16 (PipeState.mk [⟨1, [7], 1, none⟩] [([7], [7])])
    ⟨1, [7], 1, none⟩ (by decide) (by decide)
    (by intro p hp; simp only [List.mem_singleton] at hp; subst hp; rfl)
    (by decide) (by decide)
  rcases happ.1 (PipeState.mk [⟨1, [7], 1, none⟩] [([7], [7])]) (by decide)
    with ⟨hm, hst⟩
  exact ⟨hm, hst [7] (by decide)⟩

/-! ## Claim C3 -/

/-- Counterexample to the original C3: a second bundle-filter run over the
output of a first run does produce additional rewrites.  The first run
commits the compressed-bundle row (id 3) with `filter_applied = NULL`, so
the second run's selection picks it up, bundles it again — rewriting its
`filter_applied` and unlinking its blob — and inserts yet another
compressed-bundle row. -/
theorem c3_counterexample :
    bundleFilterRun (fun b => b) (fun bs => 200 :: bs) [] 2 20 8 1000
        ⟨[⟨1, [1, 1, 1, 1, 1], 5, none⟩, ⟨2, [2, 2, 2, 2, 2], 5, none⟩],
         [([1, 1, 1, 1, 1], [1, 1, 1, 1, 1]), ([2, 2, 2, 2, 2], [2, 2, 2, 2, 2])]⟩ =
      some ⟨[⟨1, [1, 1, 1, 1, 1], 5, some (.bundleF 4 0 5)⟩,
             ⟨2, [2, 2, 2, 2, 2], 5, some (.bundleF 4 5 5)⟩,
             ⟨3, [200, 1, 1, 1, 1, 1, 2, 2, 2, 2, 2], 11, none⟩,
             ⟨4, [1, 1, 1, 1, 1, 2, 2, 2, 2, 2], 10, some (.compressF 3)⟩],
            [([200, 1, 1, 1, 1, 1, 2, 2, 2, 2, 2],
              [200, 1, 1, 1, 1, 1, 2, 2, 2, 2, 2])]⟩ ∧
    storeGet [([200, 1, 1, 1, 1, 1, 2, 2, 2, 2, 2],
        [200, 1, 1, 1, 1, 1, 2, 2, 2, 2, 2])]
        [200, 1, 1, 1, 1, 1, 2, 2, 2, 2, 2] =
      some [200, 1, 1, 1, 1, 1, 2, 2, 2, 2, 2] ∧
    bundleFilterRun (fun b => b) (fun bs => 200 :: bs) [] 2 20 8 1000
        ⟨[⟨1, [1, 1, 1, 1, 1], 5, some (.bundleF 4 0 5)⟩,
          ⟨2, [2, 2, 2, 2, 2], 5, some (.bundleF 4 5 5)⟩,
          ⟨3, [200, 1, 1, 1, 1, 1, 2, 2, 2, 2, 2], 11, none⟩,
          ⟨4, [1, 1, 1, 1, 1, 2, 2, 2, 2, 2], 10, some (.compressF 3)⟩],
         [([200, 1, 1, 1, 1, 1, 2, 2, 2, 2, 2],
           [200, 1, 1, 1, 1, 1, 2, 2, 2, 2, 2])]⟩ =
      some ⟨[⟨1, [1, 1, 1, 1, 1], 5, some (.bundleF 4 0 5)⟩,
             ⟨2, [2, 2, 2, 2, 2], 5, some (.bundleF 4 5 5)⟩,
             ⟨3, [200, 1, 1, 1, 1, 1, 2, 2, 2, 2, 2], 11, some (.bundleF 3 0 11)⟩,
             ⟨4, [1, 1, 1, 1, 1, 2, 2, 2, 2, 2], 10, some (.compressF 3)⟩,
             ⟨5, [200, 200, 1, 1, 1, 1, 1, 2, 2, 2, 2, 2], 12, none⟩],
            [([200, 200, 1, 1, 1, 1, 1, 2, 2, 2, 2, 2],
              [200, 200, 1, 1, 1, 1, 1, 2, 2, 2, 2, 2])]⟩ ∧
    storeGet [([200, 200, 1, 1, 1, 1, 1, 2, 2, 2, 2, 2],
        [200, 200, 1, 1, 1, 1, 1, 2, 2, 2, 2, 2])]
        [200, 1, 1, 1, 1, 1, 2, 2, 2, 2, 2] = none := by
  refine ⟨by decide, by decide, by decide, by decide⟩

/-- C3 (amended): a row whose `filter_applied` is already set is never
selected again, so the bundle and compression filters leave every
already-filtered row of their input untouched in the table; and the slice
filter is in fact fully idempotent — a second slice run over the output of a
first returns that state unchanged (its fresh slice rows are below the
selection bound, unlike the null-`filter_applied` compressed-bundle and
compressed-blob rows the other two filters insert). -/
theorem c3_second_run_amended {h compress : Bytes → Bytes}
    (hinj : Function.Injective h) (P : List Digest)
    (lower upper exp maxSum thrNum thrDen lowerC sliceSize batchSize : Nat)
    (s s1 : PipeState) (hwf : StoreWF h s.store) (hss : 0 < sliceSize)
    (hnodup : (s.table.map (·.resource_id)).Nodup) :
    (sliceRun h P sliceSize batchSize s = some s1 →
      sliceRun h P sliceSize batchSize s1 = some s1) ∧
    (∀ s', bundleFilterRun h compress P lower upper exp maxSum s = some s' →
      ∀ r ∈ s.table, r.filter_applied ≠ none → r ∈ s'.table) ∧
    (∀ s', compressionRun h compress thrNum thrDen P lowerC s = some s' →
      ∀ r ∈ s.table, r.filter_applied ≠ none → r ∈ s'.table) := by
  refine ⟨fun hrun => sliceRun_idempotent hinj hrun hwf hss, ?_, ?_⟩
  · intro s' hrun r hr hfa
    exact bundleFilterRun_preserves hinj hrun hwf hnodup hr (Or.inl hfa)
  · intro s' hrun r hr hfa
    exact compressionRun_preserves hinj hrun hwf hnodup hr (Or.inl hfa)

theorem c3_second_run_amended_witness :
    sliceRun (fun b => b) [] 1 16
        (PipeState.mk [⟨1, [7], 5, some (.compressF 2)⟩] []) =
      some (PipeState.mk [⟨1, [7], 5, some (.compressF 2)⟩] []) ∧
    (⟨1, [7], 5, some (.compressF 2)⟩ : RstRow) ∈
      (PipeState.mk [⟨1, [7], 5, some (.compressF 2)⟩] []).table := by
  have happ := @c3_second_run_amended (fun b => b) (fun b => b)
    (fun a b hh => hh) [] 2 20 8 1000 5 4 2 1 16
    (PipeState.mk [⟨1, [7], 5, some (.compressF 2)⟩] [])
    (PipeState.mk [⟨1, [7], 5, some (.compressF 2)⟩] [])
    (by intro p hp; cases hp) (by decide) (by decide)
  refine ⟨happ.1 (by decide), ?_⟩
  exact happ.2.1 (PipeState.mk [⟨1, [7], 5, some (.compressF 2)⟩] [])
    (by decide) ⟨1, [7], 5, some (.compressF 2)⟩ (by decide) (by decide)
